import Mathlib

/-!
# glimpse::MPMCQueue

A shallow embedding of `src/glimpse/MPMCQueue.h`: the bounded queue whose slots
carry a sequence number, the constructor, the destructor, and the bodies of the
`write` and `read` loops.  Cursors and sequence numbers are `std::uint32_t`
values, modelled as natural numbers reduced modulo `2^32`.
-/

namespace glimpse

/-! ## Machine arithmetic -/

/-- Reduction of a natural number to the range of `std::uint32_t`. -/
def wrap32 (n : Nat) : Nat := n % 4294967296

/-- Subtraction `a - b` of two `std::uint32_t` values. -/
def sub32 (a b : Nat) : Nat := (a % 4294967296 + (4294967296 - b % 4294967296)) % 4294967296

/-- Conversion of a `std::uint32_t` value to `std::int32_t`. -/
def toInt32 (x : Nat) : Int :=
  if x % 4294967296 < 2147483648 then ((x % 4294967296 : Nat) : Int)
  else ((x % 4294967296 : Nat) : Int) - 4294967296

/-! ## Data model -/

/-- Storage of the `data` member of a slot.  The buffer comes from `std::malloc`,
so a slot starts without an object (`uninit`); placement `new` in `write` makes
it `live`; `std::move(slot.data)` in `read` leaves a moved-from object behind. -/
inductive Cell (T : Type) where
  | uninit : Cell T
  | live (v : T) : Cell T
  | movedFrom : Cell T
  deriving DecidableEq, Repr

/-- Mirror of `struct Slot`: the item and its sequence number. -/
structure Slot (T : Type) where
  data : Cell T
  sequence : Nat
  deriving DecidableEq, Repr

/-- Mirror of the members of `class MPMCQueue`. -/
structure MPMCQueue (T : Type) where
  _buffer : List (Slot T)
  _size : Nat
  _mask : Nat
  _read_cursor : Nat
  _write_cursor : Nat
  deriving DecidableEq, Repr

/-- Ways in which the constructor fails. -/
inductive CtorError where
  | assertion : CtorError
  | bad_alloc : CtorError
  deriving DecidableEq, Repr

/-- Result of one pass through the body of the `while(true)` loop of `write` or
`read`: the operation returned (`done`), the slot was not ready and the thread
yields before the next pass (`yield`), or the buffer was indexed outside its
allocation (`fault`). -/
inductive Attempt (α : Type) where
  | done (a : α) : Attempt α
  | yield : Attempt α
  | fault : Attempt α
  deriving DecidableEq, Repr

/-- Result of running the destructor: it finished after destroying the slots at
the listed indices, it indexed the buffer outside its allocation, or it was
still looping when the step budget ran out. -/
inductive Teardown where
  | finished (destroyed : List Nat) : Teardown
  | overrun (destroyed : List Nat) (idx : Nat) : Teardown
  | running (destroyed : List Nat) : Teardown
  deriving DecidableEq, Repr

/-! ## Operations -/

/-- The members as the constructor leaves them when it runs to its end: the
member initialisers, and the loop that gives every slot of the raw buffer its
own index as sequence number. -/
def fresh {T : Type} (size : Nat) : MPMCQueue T :=
  { _buffer := (List.range size).map fun i => { data := Cell.uninit, sequence := wrap32 i }
    _size := size
    _mask := sub32 size 1
    _read_cursor := 0
    _write_cursor := 0 }

/-- The constructor `MPMCQueue(std::uint32_t size)`.  `mallocOk` says whether
`std::malloc` returned a buffer.  The assertion is evaluated first, then the
null check, then the slots are initialised. -/
def construct {T : Type} (size : Nat) (mallocOk : Bool) : Except CtorError (MPMCQueue T) :=
  if size > 0 ∧ size &&& sub32 size 1 = 0 then
    if mallocOk then Except.ok (fresh size)
    else Except.error CtorError.bad_alloc
  else Except.error CtorError.assertion

/-- One pass through the loop body of `write` in which no other thread
interferes, so that the compare-and-swap on `_write_cursor` succeeds. -/
def writeAttempt {T : Type} (q : MPMCQueue T) (x : T) : Attempt (MPMCQueue T) :=
  let write_idx := q._write_cursor
  match q._buffer[write_idx &&& q._mask]? with
  | none => Attempt.fault
  | some slot =>
    let diff := toInt32 (sub32 slot.sequence write_idx)
    if diff = 0 then
      Attempt.done { q with
        _write_cursor := wrap32 (write_idx + 1)
        _buffer := q._buffer.set (write_idx &&& q._mask)
          { data := Cell.live x, sequence := wrap32 (write_idx + 1) } }
    else Attempt.yield

/-- One pass through the loop body of `read` in which no other thread
interferes.  On success the moved-out content of the slot is returned. -/
def readAttempt {T : Type} (q : MPMCQueue T) : Attempt (Cell T × MPMCQueue T) :=
  let read_idx := q._read_cursor
  match q._buffer[read_idx &&& q._mask]? with
  | none => Attempt.fault
  | some slot =>
    let diff := toInt32 (sub32 slot.sequence read_idx)
    if diff = 1 then
      Attempt.done (slot.data, { q with
        _read_cursor := wrap32 (read_idx + 1)
        _buffer := q._buffer.set (read_idx &&& q._mask)
          { data := Cell.movedFrom, sequence := wrap32 (read_idx + q._size) } })
    else Attempt.yield

/-- The loop of `write`, run by a thread that is alone on the queue, for at
most `fuel` passes.  `none` means that the call has not returned. -/
def write {T : Type} : Nat → MPMCQueue T → T → Option (MPMCQueue T)
  | 0, _, _ => none
  | fuel + 1, q, x =>
    match writeAttempt q x with
    | Attempt.done q' => some q'
    | Attempt.yield => write fuel q x
    | Attempt.fault => none

/-- The loop of `read`, run by a thread that is alone on the queue, for at most
`fuel` passes.  `none` means that the call has not returned. -/
def read {T : Type} : Nat → MPMCQueue T → Option (Cell T × MPMCQueue T)
  | 0, _ => none
  | fuel + 1, q =>
    match readAttempt q with
    | Attempt.done r => some r
    | Attempt.yield => read fuel q
    | Attempt.fault => none

/-- The `while(consumer_cursor != producer_cursor)` loop of the destructor, for
at most `fuel` passes; `acc` lists the indices destroyed so far. -/
def destructorLoop {T : Type} (q : MPMCQueue T) :
    Nat → Nat → Nat → List Nat → Teardown
  | 0, _, _, acc => Teardown.running acc
  | fuel + 1, consumer_cursor, producer_cursor, acc =>
    if consumer_cursor ≠ producer_cursor then
      if consumer_cursor < q._buffer.length then
        let next := wrap32 (consumer_cursor + 1)
        destructorLoop q fuel (if next = q._size then 0 else next) producer_cursor
          (acc ++ [consumer_cursor])
      else Teardown.overrun acc consumer_cursor
    else Teardown.finished acc

/-- The destructor `~MPMCQueue()`; `trivially_destructible` is the value of
`std::is_trivially_destructible<T>::value`. -/
def destructor {T : Type} (trivially_destructible : Bool) (q : MPMCQueue T) (fuel : Nat) :
    Teardown :=
  if !trivially_destructible then
    destructorLoop q fuel q._read_cursor q._write_cursor []
  else Teardown.finished []

/-! ## Schedules of operations -/

/-- An operation a caller can issue. -/
inductive Op (T : Type) where
  | write (x : T) : Op T
  | read : Op T
  deriving DecidableEq, Repr

/-- Effect of one attempt on the queue: an attempt that yields (or faults)
leaves the queue as it is. -/
def applyOp {T : Type} (q : MPMCQueue T) : Op T → MPMCQueue T
  | Op.write x =>
    match writeAttempt q x with
    | Attempt.done q' => q'
    | _ => q
  | Op.read =>
    match readAttempt q with
    | Attempt.done r => r.2
    | _ => q

/-- Effect of a sequence of attempts. -/
def runOps {T : Type} (q : MPMCQueue T) (ops : List (Op T)) : MPMCQueue T :=
  ops.foldl applyOp q

/-- States a queue of capacity `c` can be in: those obtained from the freshly
constructed queue by a sequence of write and read attempts. -/
def Reachable {T : Type} (c : Nat) (q : MPMCQueue T) : Prop :=
  ∃ q0 ops, construct c true = Except.ok q0 ∧ runOps q0 ops = q

/-- Kind of attempt in a single-producer single-consumer schedule. -/
inductive Act where
  | write : Act
  | read : Act
  deriving DecidableEq, Repr

/-- State of a producer that enqueues `0, 1, 2, ...` in order and of a consumer
that records what `read` returns. -/
structure Spsc where
  queue : MPMCQueue Nat
  next : Nat
  received : List (Cell Nat)
  deriving DecidableEq, Repr

/-- One attempt of the schedule.  The producer enqueues `next` while fewer than
`n` values have been enqueued; an attempt that yields is retried later. -/
def spscStep (n : Nat) (s : Spsc) : Act → Spsc
  | Act.write =>
    if s.next < n then
      match writeAttempt s.queue s.next with
      | Attempt.done q' => { s with queue := q', next := s.next + 1 }
      | _ => s
    else s
  | Act.read =>
    match readAttempt s.queue with
    | Attempt.done r => { s with queue := r.2, received := s.received ++ [r.1] }
    | _ => s

/-- Run of a whole schedule. -/
def spscRun (n : Nat) (s : Spsc) (sched : List Act) : Spsc :=
  sched.foldl (spscStep n) s

/-! ## Threads and interleavings

The calls `write` and `read` split into the atomic steps the threads interleave:
the load of the cursor, the load of the slot's sequence number, the
compare-and-swap on the cursor, the construction or the move of the item, and
the store of the sequence number. -/

/-- Position of a thread inside a call `write(x)`; each constructor names the
atomic step the thread takes next. -/
inductive WriterPc where
  | loadCursor : WriterPc
  | loadSequence (write_idx : Nat) : WriterPc
  | claim (write_idx : Nat) (diff : Int) : WriterPc
  | construct (write_idx : Nat) : WriterPc
  | publish (write_idx : Nat) : WriterPc
  | returned : WriterPc
  | crashed : WriterPc
  deriving DecidableEq, Repr

/-- Position of a thread inside a call `read()`. -/
inductive ReaderPc (T : Type) where
  | loadCursor : ReaderPc T
  | loadSequence (read_idx : Nat) : ReaderPc T
  | claim (read_idx : Nat) (diff : Int) : ReaderPc T
  | moveOut (read_idx : Nat) : ReaderPc T
  | release (read_idx : Nat) (slot_data : Cell T) : ReaderPc T
  | returned (slot_data : Cell T) : ReaderPc T
  | crashed : ReaderPc T
  deriving DecidableEq, Repr

/-- A thread makes one call: `write(x)` or `read()`. -/
inductive Thread (T : Type) where
  | writer (x : T) (pc : WriterPc) : Thread T
  | reader (pc : ReaderPc T) : Thread T
  deriving DecidableEq, Repr

/-- The shared queue, the threads working on it, and the order in which the
threads won the compare-and-swap on the write cursor and on the read cursor. -/
structure System (T : Type) where
  queue : MPMCQueue T
  threads : List (Thread T)
  writeClaims : List Nat
  readClaims : List Nat
  deriving DecidableEq, Repr

/-- One atomic step of a writer.  `spurious` makes `compare_exchange_weak` fail
although the cursor has the expected value.  The result is the queue, the new
position and whether the step won the claim. -/
def writerStep {T : Type} (q : MPMCQueue T) (x : T) (spurious : Bool) :
    WriterPc → MPMCQueue T × WriterPc × Bool
  | WriterPc.loadCursor => (q, WriterPc.loadSequence q._write_cursor, false)
  | WriterPc.loadSequence write_idx =>
    match q._buffer[write_idx &&& q._mask]? with
    | none => (q, WriterPc.crashed, false)
    | some slot => (q, WriterPc.claim write_idx (toInt32 (sub32 slot.sequence write_idx)), false)
  | WriterPc.claim write_idx diff =>
    if diff = 0 then
      if q._write_cursor = write_idx ∧ spurious = false then
        ({ q with _write_cursor := wrap32 (write_idx + 1) }, WriterPc.construct write_idx, true)
      else (q, WriterPc.loadCursor, false)
    else (q, WriterPc.loadCursor, false)
  | WriterPc.construct write_idx =>
    match q._buffer[write_idx &&& q._mask]? with
    | none => (q, WriterPc.crashed, false)
    | some slot =>
      ({ q with
          _buffer := q._buffer.set (write_idx &&& q._mask)
            { data := Cell.live x, sequence := slot.sequence } },
        WriterPc.publish write_idx, false)
  | WriterPc.publish write_idx =>
    match q._buffer[write_idx &&& q._mask]? with
    | none => (q, WriterPc.crashed, false)
    | some slot =>
      ({ q with
          _buffer := q._buffer.set (write_idx &&& q._mask)
            { data := slot.data, sequence := wrap32 (write_idx + 1) } },
        WriterPc.returned, false)
  | WriterPc.returned => (q, WriterPc.returned, false)
  | WriterPc.crashed => (q, WriterPc.crashed, false)

/-- One atomic step of a reader. -/
def readerStep {T : Type} (q : MPMCQueue T) (spurious : Bool) :
    ReaderPc T → MPMCQueue T × ReaderPc T × Bool
  | ReaderPc.loadCursor => (q, ReaderPc.loadSequence q._read_cursor, false)
  | ReaderPc.loadSequence read_idx =>
    match q._buffer[read_idx &&& q._mask]? with
    | none => (q, ReaderPc.crashed, false)
    | some slot => (q, ReaderPc.claim read_idx (toInt32 (sub32 slot.sequence read_idx)), false)
  | ReaderPc.claim read_idx diff =>
    if diff = 1 then
      if q._read_cursor = read_idx ∧ spurious = false then
        ({ q with _read_cursor := wrap32 (read_idx + 1) }, ReaderPc.moveOut read_idx, true)
      else (q, ReaderPc.loadCursor, false)
    else (q, ReaderPc.loadCursor, false)
  | ReaderPc.moveOut read_idx =>
    match q._buffer[read_idx &&& q._mask]? with
    | none => (q, ReaderPc.crashed, false)
    | some slot =>
      ({ q with
          _buffer := q._buffer.set (read_idx &&& q._mask)
            { data := Cell.movedFrom, sequence := slot.sequence } },
        ReaderPc.release read_idx slot.data, false)
  | ReaderPc.release read_idx slot_data =>
    match q._buffer[read_idx &&& q._mask]? with
    | none => (q, ReaderPc.crashed, false)
    | some slot =>
      ({ q with
          _buffer := q._buffer.set (read_idx &&& q._mask)
            { data := slot.data, sequence := wrap32 (read_idx + q._size) } },
        ReaderPc.returned slot_data, false)
  | ReaderPc.returned slot_data => (q, ReaderPc.returned slot_data, false)
  | ReaderPc.crashed => (q, ReaderPc.crashed, false)

/-- Thread `tid` takes its next atomic step. -/
def System.step {T : Type} (s : System T) (tid : Nat) (spurious : Bool) : System T :=
  match s.threads[tid]? with
  | none => s
  | some (Thread.writer x pc) =>
    match writerStep s.queue x spurious pc with
    | (q, pc', won) =>
      { queue := q
        threads := s.threads.set tid (Thread.writer x pc')
        writeClaims := if won then s.writeClaims ++ [tid] else s.writeClaims
        readClaims := s.readClaims }
  | some (Thread.reader pc) =>
    match readerStep s.queue spurious pc with
    | (q, pc', won) =>
      { queue := q
        threads := s.threads.set tid (Thread.reader pc')
        writeClaims := s.writeClaims
        readClaims := if won then s.readClaims ++ [tid] else s.readClaims }

/-- An interleaving: the threads step in the order of the list. -/
def System.run {T : Type} (s : System T) (sched : List Nat) : System T :=
  sched.foldl (fun s tid => s.step tid false) s

/-- A thread that takes `n` atomic steps of `write(x)` in a row. -/
def writerRun {T : Type} (x : T) : Nat → MPMCQueue T × WriterPc → MPMCQueue T × WriterPc
  | 0, s => s
  | n + 1, s => writerRun x n ((writerStep s.1 x false s.2).1, (writerStep s.1 x false s.2).2.1)

/-- A thread that takes `n` atomic steps of `read()` in a row. -/
def readerRun {T : Type} : Nat → MPMCQueue T × ReaderPc T → MPMCQueue T × ReaderPc T
  | 0, s => s
  | n + 1, s => readerRun n ((readerStep s.1 false s.2).1, (readerStep s.1 false s.2).2.1)

/-! ## Specification vocabulary -/

/-- Capacities the constructor accepts: the powers of two that fit in a
`std::uint32_t`. -/
def ValidCapacity (c : Nat) : Prop := ∃ k, k ≤ 31 ∧ c = 2 ^ k

/-- A cell that holds no item: storage never constructed, or a moved-from
object. -/
def Cell.isVacant {T : Type} : Cell T → Bool
  | Cell.live _ => false
  | _ => true

/-- Abstraction relation between a queue of capacity `c` and the list `xs` of
items that were written and not yet read.  `R` is the number of reads so far,
counted without wrap-around; the logical positions `R, ..., R + xs.length - 1`
hold the items of `xs` and are marked ready for reading, the remaining
`c - xs.length` positions up to `R + c` are marked ready for writing. -/
structure Abs {T : Type} (c : Nat) (q : MPMCQueue T) (R : Nat) (xs : List T) : Prop where
  size_eq : q._size = c
  mask_eq : q._mask = c - 1
  length_eq : q._buffer.length = c
  read_eq : q._read_cursor = R % 4294967296
  write_eq : q._write_cursor = (R + xs.length) % 4294967296
  bound : xs.length ≤ c
  published : ∀ j x, xs[j]? = some x →
    q._buffer[(R + j) % c]? = some { data := Cell.live x, sequence := (R + j + 1) % 4294967296 }
  vacant : ∀ i, R + xs.length ≤ i → i < R + c →
    ∃ d, d.isVacant = true ∧ q._buffer[i % c]? = some { data := d, sequence := i % 4294967296 }

/-- State after a successful claim by `write`. -/
def written {T : Type} (q : MPMCQueue T) (x : T) : MPMCQueue T :=
  { q with
    _write_cursor := wrap32 (q._write_cursor + 1)
    _buffer := q._buffer.set (q._write_cursor &&& q._mask)
      { data := Cell.live x, sequence := wrap32 (q._write_cursor + 1) } }

/-- State after a successful claim by `read`. -/
def consumed {T : Type} (q : MPMCQueue T) : MPMCQueue T :=
  { q with
    _read_cursor := wrap32 (q._read_cursor + 1)
    _buffer := q._buffer.set (q._read_cursor &&& q._mask)
      { data := Cell.movedFrom, sequence := wrap32 (q._read_cursor + q._size) } }

/-- Invariant of the queue of capacity one: its only slot always carries the
value of the write cursor as sequence number. -/
structure Solo {T : Type} (q : MPMCQueue T) : Prop where
  size_eq : q._size = 1
  mask_eq : q._mask = 0
  buffer_eq : ∃ d, q._buffer = [{ data := d, sequence := q._write_cursor }]
  write_lt : q._write_cursor < 4294967296
  read_lt : q._read_cursor < 4294967296

/-- A queue of capacity one whose only slot holds `d` with sequence number
`s`, with read cursor `r` and write cursor `w`. -/
def single {T : Type} (d : Cell T) (s r w : Nat) : MPMCQueue T :=
  { _buffer := [{ data := d, sequence := s }], _size := 1, _mask := 0,
    _read_cursor := r, _write_cursor := w }

/-- Calls of `write`, one after the other, for the items of a list. -/
def writeMany {T : Type} (fuel : Nat) : MPMCQueue T → List T → Option (MPMCQueue T)
  | q, [] => some q
  | q, x :: xs =>
    match write fuel q x with
    | none => none
    | some q' => writeMany fuel q' xs

/-- `n` calls of `read`, one after the other; the results are collected in the
order of the calls. -/
def readMany {T : Type} (fuel : Nat) : MPMCQueue T → Nat → Option (List (Cell T) × MPMCQueue T)
  | q, 0 => some ([], q)
  | q, n + 1 =>
    match read fuel q with
    | none => none
    | some (v, q') =>
      match readMany fuel q' n with
      | none => none
      | some (vs, q'') => some (v :: vs, q'')

/-- The schedule `write; read; write; read; ...` of `n` rounds. -/
def alternation : Nat → List Act
  | 0 => []
  | n + 1 => Act.write :: Act.read :: alternation n

/-- Invariant of a single-producer single-consumer run: the queue holds the
values `R, ..., next - 1` and the consumer has received `0, ..., R - 1`. -/
structure SpscInv (c : Nat) (s : Spsc) (R : Nat) (xs : List Nat) : Prop where
  abs : Abs c s.queue R xs
  content : xs = List.range' R xs.length
  next_eq : s.next = R + xs.length
  received_eq : s.received = (List.range R).map Cell.live

/-- A queue of capacity 2 after three writes and one read: the write cursor has
passed the end of the buffer. -/
def lapped : MPMCQueue Nat := runOps (fresh 2) [Op.write 5, Op.write 6, Op.read, Op.write 7]

/-- A cell in which an element object has been constructed and not destroyed:
a live item or a moved-from object. -/
def Cell.hasObject {T : Type} : Cell T → Bool
  | Cell.uninit => false
  | _ => true

/-- What happens to the data of a physical slot: `write` constructs an item in
it, `read` moves the item out of it. -/
inductive SlotEvent where
  | construct (slot : Nat) : SlotEvent
  | moveOut (slot : Nat) : SlotEvent
  deriving DecidableEq, Repr

/-- The event of one attempt: a write attempt that claims constructs in the
slot under the write cursor, a read attempt that claims moves out of the slot
under the read cursor, an attempt that yields touches no slot. -/
def eventOf {T : Type} (q : MPMCQueue T) : Op T → List SlotEvent
  | Op.write x =>
    match writeAttempt q x with
    | Attempt.done _ => [SlotEvent.construct (q._write_cursor &&& q._mask)]
    | _ => []
  | Op.read =>
    match readAttempt q with
    | Attempt.done _ => [SlotEvent.moveOut (q._read_cursor &&& q._mask)]
    | _ => []

/-- The events of a sequence of attempts, in order. -/
def events {T : Type} : MPMCQueue T → List (Op T) → List SlotEvent
  | _, [] => []
  | q, op :: ops => eventOf q op ++ events (applyOp q op) ops

/-- The events on slot `s` strictly alternate; `occupied` says whether the last
event on `s` so far was a construction. -/
def alternatesFrom (s : Nat) : Bool → List SlotEvent → Bool
  | _, [] => true
  | occupied, SlotEvent.construct t :: es =>
    if t = s then !occupied && alternatesFrom s true es else alternatesFrom s occupied es
  | occupied, SlotEvent.moveOut t :: es =>
    if t = s then occupied && alternatesFrom s false es else alternatesFrom s occupied es

/-- The events on slot `s` are construct, move-out, construct, move-out, ...,
starting with a construct. -/
def alternates (s : Nat) (es : List SlotEvent) : Bool := alternatesFrom s false es

/-- Slot `s` of the queue holds an item that has not been moved out. -/
def occupied {T : Type} (q : MPMCQueue T) (s : Nat) : Bool :=
  match q._buffer[s]? with
  | some slot => !slot.data.isVacant
  | none => false


/-! ## Arithmetic of cursors and masks -/

/-- The test `diff == 0` of `write` holds exactly when the sequence number equals
the loaded cursor. -/
theorem diff_zero_iff (s w : Nat) :
    toInt32 (sub32 s w) = 0 ↔ s % 4294967296 = w % 4294967296 := by
  unfold toInt32 sub32
  split <;> omega

/-- The test `diff == 1` of `read` holds exactly when the sequence number is the
successor of the loaded cursor, modulo `2^32`. -/
theorem diff_one_iff (s r : Nat) :
    toInt32 (sub32 s r) = 1 ↔ s % 4294967296 = (r + 1) % 4294967296 := by
  unfold toInt32 sub32
  split <;> omega

/-- A valid capacity is positive. -/
theorem ValidCapacity.pos {c : Nat} (h : ValidCapacity c) : 0 < c := by
  obtain ⟨k, _, rfl⟩ := h
  exact Nat.pos_pow_of_pos k (by norm_num)

/-- A valid capacity is at most `2^31`. -/
theorem ValidCapacity.le {c : Nat} (h : ValidCapacity c) : c ≤ 2147483648 := by
  obtain ⟨k, hk, rfl⟩ := h
  calc 2 ^ k ≤ 2 ^ 31 := Nat.pow_le_pow_right (by norm_num) hk
    _ = 2147483648 := by norm_num

/-- A valid capacity divides `2^32`, so wrap-around of a cursor respects the slot
index. -/
theorem ValidCapacity.dvd {c : Nat} (h : ValidCapacity c) : c ∣ 4294967296 := by
  obtain ⟨k, hk, rfl⟩ := h
  have : (4294967296 : Nat) = 2 ^ 32 := by norm_num
  rw [this]
  exact Nat.pow_dvd_pow 2 (by omega)

/-- The mask `size - 1` does not underflow. -/
theorem ValidCapacity.sub32_one {c : Nat} (h : ValidCapacity c) : sub32 c 1 = c - 1 := by
  have h1 := h.pos
  have h2 := h.le
  unfold sub32
  omega

/-- Masking with `c - 1` is the remainder modulo `c`. -/
theorem ValidCapacity.and_mask {c : Nat} (h : ValidCapacity c) (x : Nat) :
    x &&& (c - 1) = x % c := by
  obtain ⟨k, _, rfl⟩ := h
  exact Nat.and_pow_two_sub_one_eq_mod x k

/-- The slot of a wrapped cursor is the slot of the unwrapped position. -/
theorem ValidCapacity.wrap_mod {c : Nat} (h : ValidCapacity c) (x : Nat) :
    (x % 4294967296) % c = x % c :=
  Nat.mod_mod_of_dvd x h.dvd

/-- Two positions less than `c` apart lie in different slots. -/
theorem mod_ne_of_lt {c i j : Nat} (h1 : i < j) (h2 : j < i + c) : i % c ≠ j % c := by
  intro h
  have h3 : (j - i) % c = 0 := Nat.sub_mod_eq_zero_of_mod_eq h.symm
  have h4 : c ∣ j - i := Nat.dvd_of_mod_eq_zero h3
  have h5 : c ≤ j - i := Nat.le_of_dvd (by omega) h4
  omega

/-! ## The abstraction relation is kept by every attempt -/

/-- A pass of `write` in terms of the slot under the write cursor. -/
theorem writeAttempt_of_slot {T : Type} {q : MPMCQueue T} {s : Slot T} (x : T)
    (hs : q._buffer[q._write_cursor &&& q._mask]? = some s) :
    writeAttempt q x =
      if s.sequence % 4294967296 = q._write_cursor % 4294967296 then Attempt.done (written q x)
      else Attempt.yield := by
  unfold writeAttempt
  simp only [hs, diff_zero_iff]
  rfl

/-- A pass of `read` in terms of the slot under the read cursor. -/
theorem readAttempt_of_slot {T : Type} {q : MPMCQueue T} {s : Slot T}
    (hs : q._buffer[q._read_cursor &&& q._mask]? = some s) :
    readAttempt q =
      if s.sequence % 4294967296 = (q._read_cursor + 1) % 4294967296 then
        Attempt.done (s.data, consumed q)
      else Attempt.yield := by
  unfold readAttempt
  simp only [hs, diff_one_iff]
  rfl

/-- For a valid capacity and a successful allocation the constructor returns the
initialised members. -/
theorem construct_valid {T : Type} {c : Nat} (hc : ValidCapacity c) :
    (construct c true : Except CtorError (MPMCQueue T)) = Except.ok (fresh c) := by
  have hpos := hc.pos
  have hand : c &&& sub32 c 1 = 0 := by
    rw [hc.sub32_one, hc.and_mask, Nat.mod_self]
  simp only [construct, hpos, hand, gt_iff_lt, and_self, if_true]

/-- The new queue represents the empty list. -/
theorem fresh_abs {T : Type} {c : Nat} (hc : ValidCapacity c) :
    Abs c (fresh c : MPMCQueue T) 0 [] := by
  have hle := hc.le
  refine ⟨rfl, hc.sub32_one, by simp [fresh], rfl, rfl, by simp, ?_, ?_⟩
  · intro j x h
    simp at h
  · intro i h1 h2
    have hi : i < c := by omega
    refine ⟨Cell.uninit, rfl, ?_⟩
    simp only [fresh, List.getElem?_map, Nat.mod_eq_of_lt hi, List.getElem?_range hi,
      Option.map_some', wrap32]

/-- What the constructor returns is the initialised members. -/
theorem construct_eq_fresh {T : Type} {c : Nat} {q0 : MPMCQueue T} (hc : ValidCapacity c)
    (h : construct c true = Except.ok q0) : q0 = fresh c := by
  rw [construct_valid hc] at h
  exact (Except.ok.inj h).symm

/-- On a queue that is not full a write attempt claims the slot and appends the
item to the represented list. -/
theorem Abs.write_ok {T : Type} {c : Nat} {q : MPMCQueue T} {R : Nat} {xs : List T}
    (hc : ValidCapacity c) (h : Abs c q R xs) (hlt : xs.length < c) (x : T) :
    writeAttempt q x = Attempt.done (written q x) ∧ Abs c (written q x) R (xs ++ [x]) := by
  obtain ⟨d, hd, hslot⟩ := h.vacant (R + xs.length) (le_refl _) (by omega)
  have hidx : q._write_cursor &&& q._mask = (R + xs.length) % c := by
    rw [h.mask_eq, h.write_eq, hc.and_mask, hc.wrap_mod]
  have hlen : (R + xs.length) % c < q._buffer.length := by
    rw [h.length_eq]; exact Nat.mod_lt _ hc.pos
  rw [← hidx] at hslot
  constructor
  · rw [writeAttempt_of_slot x hslot, if_pos]
    simp only [h.write_eq, Nat.mod_mod]
  · refine ⟨h.size_eq, h.mask_eq, by simp [written, h.length_eq], h.read_eq, ?_, ?_, ?_, ?_⟩
    · simp only [written, wrap32, h.write_eq, List.length_append, List.length_singleton]
      omega
    · simp only [List.length_append, List.length_singleton]; omega
    · intro j y hj
      rcases Nat.lt_or_ge j xs.length with hjl | hjl
      · rw [List.getElem?_append_left hjl] at hj
        have hne : (R + xs.length) % c ≠ (R + j) % c :=
          (mod_ne_of_lt (by omega) (by omega)).symm
        simp only [written, hidx]
        rw [List.getElem?_set_ne hne]
        exact h.published j y hj
      · have hjeq : j = xs.length := by
          obtain ⟨hlt2, _⟩ := List.getElem?_eq_some.mp hj
          simp at hlt2
          omega
        subst hjeq
        simp at hj
        subst hj
        simp only [written, hidx]
        rw [List.getElem?_set_eq_of_lt _ hlen]
        simp only [wrap32, h.write_eq]
        congr 2
        omega
    · intro i h1 h2
      simp only [List.length_append, List.length_singleton] at h1
      have hne : (R + xs.length) % c ≠ i % c := mod_ne_of_lt (by omega) (by omega)
      simp only [written, hidx]
      rw [List.getElem?_set_ne hne]
      exact h.vacant i (by omega) h2

/-- On a full queue of capacity at least two a write attempt yields. -/
theorem Abs.write_full {T : Type} {c : Nat} {q : MPMCQueue T} {R : Nat} {xs : List T}
    (hc : ValidCapacity c) (h2 : 2 ≤ c) (h : Abs c q R xs) (hfull : xs.length = c) (x : T) :
    writeAttempt q x = Attempt.yield := by
  have hle := hc.le
  obtain ⟨y, hy⟩ : ∃ y, xs[0]? = some y := by
    cases xs with
    | nil => simp at hfull; omega
    | cons y ys => exact ⟨y, by simp⟩
  have hslot := h.published 0 y hy
  have hidx : q._write_cursor &&& q._mask = (R + 0) % c := by
    rw [h.mask_eq, h.write_eq, hc.and_mask, hc.wrap_mod, hfull, Nat.add_mod_right, Nat.add_zero]
  rw [← hidx] at hslot
  rw [writeAttempt_of_slot x hslot, if_neg]
  simp only [h.write_eq, hfull, Nat.mod_mod]
  omega

/-- On an empty queue a read attempt yields. -/
theorem Abs.read_empty {T : Type} {c : Nat} {q : MPMCQueue T} {R : Nat}
    (hc : ValidCapacity c) (h : Abs c q R []) :
    readAttempt q = Attempt.yield := by
  have hpos := hc.pos
  obtain ⟨d, _, hslot⟩ := h.vacant R (by simp) (by omega)
  have hidx : q._read_cursor &&& q._mask = R % c := by
    rw [h.mask_eq, h.read_eq, hc.and_mask, hc.wrap_mod]
  rw [← hidx] at hslot
  rw [readAttempt_of_slot hslot, if_neg]
  simp only [h.read_eq, Nat.mod_mod]
  omega

/-- On a queue that is not empty a read attempt returns the head of the
represented list and removes it. -/
theorem Abs.read_ok {T : Type} {c : Nat} {q : MPMCQueue T} {R : Nat} {y : T} {ys : List T}
    (hc : ValidCapacity c) (h : Abs c q R (y :: ys)) :
    readAttempt q = Attempt.done (Cell.live y, consumed q) ∧ Abs c (consumed q) (R + 1) ys := by
  have hpos := hc.pos
  have hb := h.bound
  simp only [List.length_cons] at hb
  have hslot := h.published 0 y (by simp)
  have hidx : q._read_cursor &&& q._mask = R % c := by
    rw [h.mask_eq, h.read_eq, hc.and_mask, hc.wrap_mod]
  have hlen : R % c < q._buffer.length := by
    rw [h.length_eq]; exact Nat.mod_lt _ hpos
  rw [Nat.add_zero, ← hidx] at hslot
  constructor
  · rw [readAttempt_of_slot hslot, if_pos]
    simp only [h.read_eq, Nat.mod_mod]
    omega
  · refine ⟨h.size_eq, h.mask_eq, by simp [consumed, h.length_eq], ?_, ?_, by omega, ?_, ?_⟩
    · simp only [consumed, wrap32, h.read_eq]
      omega
    · simp only [consumed, h.write_eq, List.length_cons]
      congr 1
      omega
    · intro j x hj
      have hj2 : (y :: ys)[j + 1]? = some x := by simpa using hj
      have hjl : j < ys.length := (List.getElem?_eq_some.mp hj).1
      have hne : R % c ≠ (R + 1 + j) % c := mod_ne_of_lt (by omega) (by omega)
      simp only [consumed, hidx]
      rw [List.getElem?_set_ne hne]
      have := h.published (j + 1) x hj2
      rw [show R + (j + 1) = R + 1 + j by omega] at this
      exact this
    · intro i h1 h2
      rcases Nat.lt_or_ge i (R + c) with hi | hi
      · have hne : R % c ≠ i % c := mod_ne_of_lt (by omega) (by omega)
        simp only [consumed, hidx]
        rw [List.getElem?_set_ne hne]
        exact h.vacant i (by simp only [List.length_cons]; omega) hi
      · have hieq : i = R + c := by omega
        subst hieq
        refine ⟨Cell.movedFrom, rfl, ?_⟩
        simp only [consumed, hidx, Nat.add_mod_right]
        rw [List.getElem?_set_eq_of_lt _ hlen]
        simp only [wrap32, h.read_eq, h.size_eq]
        congr 2
        omega

/-! ## Reachable states -/

/-- One is a valid capacity. -/
theorem validCapacity_one : ValidCapacity 1 := ⟨0, by norm_num, by norm_num⟩

/-- For a capacity of at least two every attempt keeps the abstraction relation. -/
theorem Abs.step_ok {T : Type} {c : Nat} {q : MPMCQueue T} {R : Nat} {xs : List T}
    (hc : ValidCapacity c) (h2 : 2 ≤ c) (h : Abs c q R xs) (op : Op T) :
    ∃ R' xs', Abs c (applyOp q op) R' xs' := by
  cases op with
  | write x =>
    rcases Nat.lt_or_ge xs.length c with hlt | hge
    · obtain ⟨h1, h3⟩ := h.write_ok hc hlt x
      exact ⟨R, xs ++ [x], by simpa only [glimpse.applyOp, h1] using h3⟩
    · have hfull : xs.length = c := le_antisymm h.bound hge
      have h1 := h.write_full hc h2 hfull x
      exact ⟨R, xs, by simpa only [glimpse.applyOp, h1] using h⟩
  | read =>
    cases xs with
    | nil =>
      have h1 := h.read_empty hc
      exact ⟨R, [], by simpa only [glimpse.applyOp, h1] using h⟩
    | cons y ys =>
      obtain ⟨h1, h3⟩ := h.read_ok hc
      exact ⟨R + 1, ys, by simpa only [glimpse.applyOp, h1] using h3⟩

/-- For a capacity of at least two every sequence of attempts keeps the
abstraction relation. -/
theorem Abs.run_ok {T : Type} {c : Nat} (hc : ValidCapacity c) (h2 : 2 ≤ c) (ops : List (Op T)) :
    ∀ (q : MPMCQueue T) (R : Nat) (xs : List T), Abs c q R xs →
      ∃ R' xs', Abs c (runOps q ops) R' xs' := by
  induction ops with
  | nil => intro q R xs h; exact ⟨R, xs, h⟩
  | cons op ops ih =>
    intro q R xs h
    obtain ⟨R', xs', h'⟩ := h.step_ok hc h2 op
    exact ih _ R' xs' h'

/-- For a capacity of at least two every reachable state represents a list of at
most `c` items. -/
theorem reachable_abs {T : Type} {c : Nat} {q : MPMCQueue T} (hc : ValidCapacity c)
    (h2 : 2 ≤ c) (hq : Reachable c q) : ∃ R xs, Abs c q R xs := by
  obtain ⟨q0, ops, h0, rfl⟩ := hq
  rw [construct_eq_fresh hc h0]
  exact Abs.run_ok hc h2 ops _ 0 [] (fresh_abs hc)

/-- The difference of the cursors, modulo `2^32`, is the number of represented
items. -/
theorem Abs.outstanding {T : Type} {c : Nat} {q : MPMCQueue T} {R : Nat} {xs : List T}
    (hc : ValidCapacity c) (h : Abs c q R xs) :
    sub32 q._write_cursor q._read_cursor = xs.length := by
  have hb := h.bound
  have hle := hc.le
  rw [h.write_eq, h.read_eq]
  unfold sub32
  omega

/-- The new queue of capacity one satisfies the invariant of capacity one. -/
theorem fresh_solo {T : Type} : Solo (fresh 1 : MPMCQueue T) :=
  ⟨rfl, rfl, ⟨Cell.uninit, rfl⟩, by simp [fresh], by simp [fresh]⟩

/-- With capacity one every write attempt claims the slot. -/
theorem Solo.write_solo {T : Type} {q : MPMCQueue T} (h : Solo q) (x : T) :
    writeAttempt q x = Attempt.done (written q x) ∧ Solo (written q x) ∧
      (written q x)._buffer = [{ data := Cell.live x, sequence := wrap32 (q._write_cursor + 1) }] := by
  obtain ⟨d, hd⟩ := h.buffer_eq
  have hidx : q._write_cursor &&& q._mask = 0 := by rw [h.mask_eq, Nat.and_zero]
  have hslot : q._buffer[q._write_cursor &&& q._mask]? =
      some { data := d, sequence := q._write_cursor } := by rw [hidx, hd]; rfl
  have hb : (written q x)._buffer =
      [{ data := Cell.live x, sequence := wrap32 (q._write_cursor + 1) }] := by
    simp only [written, hidx, hd, List.set_cons_zero]
  refine ⟨by rw [writeAttempt_of_slot x hslot, if_pos rfl], ⟨h.size_eq, h.mask_eq, ⟨_, hb⟩, ?_, h.read_lt⟩, hb⟩
  exact Nat.mod_lt _ (by norm_num)

/-- With capacity one a read attempt yields or returns and keeps the invariant. -/
theorem Solo.read_cases {T : Type} {q : MPMCQueue T} (h : Solo q) :
    readAttempt q = Attempt.yield ∨
      (∃ d, readAttempt q = Attempt.done (d, consumed q) ∧ Solo (consumed q)) := by
  obtain ⟨d, hd⟩ := h.buffer_eq
  have hidx : q._read_cursor &&& q._mask = 0 := by rw [h.mask_eq, Nat.and_zero]
  have hslot : q._buffer[q._read_cursor &&& q._mask]? =
      some { data := d, sequence := q._write_cursor } := by rw [hidx, hd]; rfl
  rw [readAttempt_of_slot hslot]
  by_cases hseq : q._write_cursor % 4294967296 = (q._read_cursor + 1) % 4294967296
  · right
    refine ⟨d, by simp only [hseq, if_true], h.size_eq, h.mask_eq, ⟨Cell.movedFrom, ?_⟩, h.write_lt, ?_⟩
    · have hw := h.write_lt
      simp only [consumed, hidx, hd, List.set_cons_zero, h.size_eq, wrap32]
      congr 2
      omega
    · exact Nat.mod_lt _ (by norm_num)
  · left
    simp only [hseq, if_false]

/-- With capacity one every attempt keeps the invariant. -/
theorem Solo.step_solo {T : Type} {q : MPMCQueue T} (h : Solo q) (op : Op T) :
    Solo (applyOp q op) := by
  cases op with
  | write x =>
    obtain ⟨h1, h3, _⟩ := h.write_solo x
    simpa only [glimpse.applyOp, h1] using h3
  | read =>
    rcases h.read_cases with h1 | ⟨d, h1, h3⟩
    · simpa only [glimpse.applyOp, h1] using h
    · simpa only [glimpse.applyOp, h1] using h3

/-- Every reachable state of the queue of capacity one satisfies the invariant. -/
theorem reachable_solo {T : Type} {q : MPMCQueue T} (hq : Reachable 1 q) : Solo q := by
  obtain ⟨q0, ops, h0, rfl⟩ := hq
  rw [construct_eq_fresh validCapacity_one h0]
  have key : ∀ (ops : List (Op T)) (q : MPMCQueue T), Solo q → Solo (runOps q ops) := by
    intro ops
    induction ops with
    | nil => intro q h; exact h
    | cons op ops ih => intro q h; exact ih _ (h.step_solo op)
  exact key ops _ fresh_solo

/-- An attempt leads from a reachable state to a reachable state. -/
theorem reachable_step {T : Type} {c : Nat} {q : MPMCQueue T} (hq : Reachable c q) (op : Op T) :
    Reachable c (applyOp q op) := by
  obtain ⟨q0, ops, h0, rfl⟩ := hq
  exact ⟨q0, ops ++ [op], h0, by simp [runOps, List.foldl_append]⟩

/-! ## The constructor's assertion -/

/-- A positive number that has no bit in common with its predecessor is a power
of two. -/
theorem pow_two_of_and_pred (c : Nat) : 0 < c → c &&& (c - 1) = 0 → ∃ k, c = 2 ^ k := by
  induction c using Nat.strong_induction_on with
  | _ c ih =>
    intro hpos hand
    rcases Nat.lt_or_ge c 2 with hlt | hge
    · exact ⟨0, by omega⟩
    · have hdiv : c / 2 &&& (c - 1) / 2 = 0 := by
        rw [← Nat.and_div_two, hand]
      rcases Nat.mod_two_eq_zero_or_one c with hev | hodd
      · have h1 : (c - 1) / 2 = c / 2 - 1 := by omega
        rw [h1] at hdiv
        obtain ⟨k, hk⟩ := ih (c / 2) (by omega) (by omega) hdiv
        exact ⟨k + 1, by rw [pow_succ, ← hk]; omega⟩
      · have h1 : (c - 1) / 2 = c / 2 := by omega
        rw [h1, Nat.and_self] at hdiv
        omega

/-- A power of two has no bit in common with its predecessor. -/
theorem and_pred_of_pow_two (k : Nat) : 2 ^ k &&& (2 ^ k - 1) = 0 := by
  rw [Nat.and_pow_two_sub_one_eq_mod, Nat.mod_self]

/-- The condition of the constructor's assertion, on `std::uint32_t`, says that
the size is a positive power of two. -/
theorem assertion_iff (c : Nat) (hc : c < 4294967296) :
    (c > 0 ∧ c &&& sub32 c 1 = 0) ↔ (0 < c ∧ ∃ k, c = 2 ^ k) := by
  constructor
  · rintro ⟨hpos, hand⟩
    have hs : sub32 c 1 = c - 1 := by unfold sub32; omega
    rw [hs] at hand
    exact ⟨hpos, pow_two_of_and_pred c hpos hand⟩
  · rintro ⟨hpos, k, rfl⟩
    have hs : sub32 (2 ^ k) 1 = 2 ^ k - 1 := by unfold sub32; omega
    exact ⟨hpos, by rw [hs]; exact and_pred_of_pow_two k⟩

/-- A thread alone on the queue whose write attempt yields never returns from
`write`. -/
theorem write_never_returns {T : Type} {q : MPMCQueue T} {x : T}
    (h : writeAttempt q x = Attempt.yield) : ∀ fuel, write fuel q x = none := by
  intro fuel
  induction fuel with
  | zero => rfl
  | succ n ih => simp only [write, h, ih]

/-- A thread alone on the queue whose read attempt yields never returns from
`read`. -/
theorem read_never_returns {T : Type} {q : MPMCQueue T}
    (h : readAttempt q = Attempt.yield) : ∀ fuel, read fuel q = none := by
  intro fuel
  induction fuel with
  | zero => rfl
  | succ n ih => simp only [read, h, ih]

/-- When the first pass claims the slot, `write` returns whatever the budget. -/
theorem write_returns {T : Type} {q q' : MPMCQueue T} {x : T}
    (h : writeAttempt q x = Attempt.done q') : ∀ fuel, write (fuel + 1) q x = some q' := by
  intro fuel
  simp only [write, h]

/-- When the first pass claims the slot, `read` returns whatever the budget. -/
theorem read_returns {T : Type} {q : MPMCQueue T} {r : Cell T × MPMCQueue T}
    (h : readAttempt q = Attempt.done r) : ∀ fuel, read (fuel + 1) q = some r := by
  intro fuel
  simp only [read, h]

/-- Writes that fit into the free part of the queue all return at once. -/
theorem Abs.writeMany_ok {T : Type} {c : Nat} (hc : ValidCapacity c) (vs : List T) :
    ∀ (q : MPMCQueue T) (R : Nat) (xs : List T), Abs c q R xs → xs.length + vs.length ≤ c →
      ∃ q1, (∀ fuel, writeMany (fuel + 1) q vs = some q1) ∧ Abs c q1 R (xs ++ vs) := by
  induction vs with
  | nil =>
    intro q R xs h _
    exact ⟨q, fun _ => rfl, by simpa using h⟩
  | cons v vs ih =>
    intro q R xs h hlen
    simp only [List.length_cons] at hlen
    obtain ⟨h1, h2⟩ := h.write_ok hc (by omega) v
    obtain ⟨q1, h3, h4⟩ := ih (written q v) R (xs ++ [v]) h2 (by simp; omega)
    refine ⟨q1, fun fuel => ?_, by simpa using h4⟩
    simp only [glimpse.writeMany, write_returns h1 fuel, h3 fuel]

/-- As many reads as there are items return the items in order and leave the
queue empty. -/
theorem Abs.readMany_ok {T : Type} {c : Nat} (hc : ValidCapacity c) (xs : List T) :
    ∀ (q : MPMCQueue T) (R : Nat), Abs c q R xs →
      ∃ q2, (∀ fuel, readMany (fuel + 1) q xs.length = some (xs.map Cell.live, q2)) ∧
        Abs c q2 (R + xs.length) [] := by
  induction xs with
  | nil =>
    intro q R h
    exact ⟨q, fun _ => rfl, h⟩
  | cons y ys ih =>
    intro q R h
    obtain ⟨h1, h2⟩ := h.read_ok hc
    obtain ⟨q2, h3, h4⟩ := ih (consumed q) (R + 1) h2
    refine ⟨q2, fun fuel => ?_, ?_⟩
    · simp only [glimpse.readMany, List.length_cons, read_returns h1 fuel, h3 fuel, List.map_cons]
    · rw [List.length_cons, show R + (ys.length + 1) = R + 1 + ys.length by omega]
      exact h4

/-- Equal cursors mean that no item is represented. -/
theorem Abs.nil_of_cursors_eq {T : Type} {c : Nat} {q : MPMCQueue T} {R : Nat} {xs : List T}
    (hc : ValidCapacity c) (h : Abs c q R xs) (heq : q._read_cursor = q._write_cursor) :
    xs = [] := by
  have h1 := h.outstanding hc
  rw [heq] at h1
  have h2 : sub32 q._write_cursor q._write_cursor = 0 := by unfold sub32; omega
  exact List.length_eq_zero.mp (by omega)

/-- In a reachable state with equal cursors, for any valid capacity, a write
attempt claims its slot and the read attempt after it returns the item. -/
theorem round_trip_core {T : Type} {c : Nat} {q : MPMCQueue T} (hc : ValidCapacity c)
    (hq : Reachable c q) (hempty : q._read_cursor = q._write_cursor) (x : T) :
    writeAttempt q x = Attempt.done (written q x) ∧
      readAttempt (written q x) = Attempt.done (Cell.live x, consumed (written q x)) := by
  have hpos := hc.pos
  rcases Nat.lt_or_ge c 2 with hlt | hge
  · have hc1 : c = 1 := by omega
    subst hc1
    have hs := reachable_solo hq
    obtain ⟨h1, h2, h3⟩ := hs.write_solo x
    refine ⟨h1, ?_⟩
    have hidx : (written q x)._read_cursor &&& (written q x)._mask = 0 := by
      rw [h2.mask_eq, Nat.and_zero]
    have hslot : (written q x)._buffer[(written q x)._read_cursor &&& (written q x)._mask]? =
        some { data := Cell.live x, sequence := wrap32 (q._write_cursor + 1) } := by
      rw [hidx, h3]; rfl
    rw [readAttempt_of_slot hslot, if_pos]
    show wrap32 (q._write_cursor + 1) % 4294967296 = (q._read_cursor + 1) % 4294967296
    rw [hempty, wrap32, Nat.mod_mod]
  · obtain ⟨R, xs, h⟩ := reachable_abs hc hge hq
    have hnil := h.nil_of_cursors_eq hc hempty
    subst hnil
    obtain ⟨h1, h2⟩ := h.write_ok hc (by simpa using hpos) x
    exact ⟨h1, (h2.read_ok hc).1⟩

/-- Rounds of `write; read` from a reachable state with equal cursors deliver
the values written, in order. -/
theorem alternation_run {c : Nat} (hc : ValidCapacity c) (n : Nat) :
    ∀ (m : Nat) (q : MPMCQueue Nat) (k : Nat) (got : List (Cell Nat)),
      Reachable c q → q._read_cursor = q._write_cursor → k + m ≤ n →
      (spscRun n (Spsc.mk q k got) (alternation m)).received =
        got ++ (List.range' k m).map Cell.live := by
  intro m
  induction m with
  | zero => intro q k got _ _ _; simp [alternation, spscRun]
  | succ m ih =>
    intro q k got hq hempty hk
    obtain ⟨h1, h2⟩ := round_trip_core hc hq hempty k
    have hq2 : Reachable c (consumed (written q k)) := by
      have := reachable_step (reachable_step hq (Op.write k)) Op.read
      simpa only [applyOp, h1, h2] using this
    have hstep : spscRun n (Spsc.mk q k got) (alternation (m + 1)) =
        spscRun n (Spsc.mk (consumed (written q k)) (k + 1) (got ++ [Cell.live k]))
          (alternation m) := by
      have hkn : k < n := by omega
      simp only [alternation, spscRun, List.foldl_cons, spscStep, hkn, if_true, h1, h2]
    rw [hstep, ih _ (k + 1) _ hq2 (by simp only [consumed, written, hempty]) (by omega)]
    simp [List.range'_succ]

/-- The new queue of capacity one, spelled out. -/
theorem fresh_one {T : Type} : (fresh 1 : MPMCQueue T) = single Cell.uninit 0 0 0 := rfl

/-- A write attempt on a queue of capacity one whose sequence number equals the
write cursor claims the slot. -/
theorem writeAttempt_single {T : Type} (d : Cell T) (r w : Nat) (x : T) :
    writeAttempt (single d w r w) x =
      Attempt.done (single (Cell.live x) (wrap32 (w + 1)) r (wrap32 (w + 1))) := by
  have hslot : (single d w r w)._buffer[(single d w r w)._write_cursor &&&
      (single d w r w)._mask]? = some { data := d, sequence := w } := by
    simp [single]
  rw [writeAttempt_of_slot x hslot, if_pos (by rfl)]
  simp [written, single]

/-- With capacity one, `n` write attempts in a row all succeed; the last value
written stays in the slot and the sequence number is the wrapped write cursor. -/
theorem single_writes (bound r : Nat) :
    ∀ (n : Nat) (d : Cell Nat) (w k : Nat) (got : List (Cell Nat)), 1 ≤ n → k + n ≤ bound →
      spscRun bound (Spsc.mk (single d w r w) k got) (List.replicate n Act.write) =
        Spsc.mk (single (Cell.live (k + n - 1)) (wrap32 (w + n)) r (wrap32 (w + n))) (k + n) got := by
  intro n
  induction n with
  | zero => intro d w k got h; omega
  | succ m ih =>
    intro d w k got _ hk
    have hkb : k < bound := by omega
    have hstep : spscRun bound (Spsc.mk (single d w r w) k got) (List.replicate (m + 1) Act.write) =
        spscRun bound (Spsc.mk (single (Cell.live k) (wrap32 (w + 1)) r (wrap32 (w + 1))) (k + 1) got)
          (List.replicate m Act.write) := by
      simp only [List.replicate_succ, spscRun, List.foldl_cons, spscStep, hkb, if_true,
        writeAttempt_single]
    rw [hstep]
    rcases Nat.eq_zero_or_pos m with hm | hm
    · subst hm
      simp [spscRun]
    · rw [ih (Cell.live k) (wrap32 (w + 1)) (k + 1) got hm (by omega)]
      have e1 : k + 1 + m - 1 = k + (m + 1) - 1 := by omega
      have e2 : wrap32 (wrap32 (w + 1) + m) = wrap32 (w + (m + 1)) := by
        unfold wrap32; omega
      have e3 : k + 1 + m = k + (m + 1) := by omega
      rw [e1, e2, e3]

/-- For a capacity of at least two every attempt of the schedule keeps the
invariant of the run. -/
theorem SpscInv.spsc_step {c : Nat} {s : Spsc} {R : Nat} {xs : List Nat} (hc : ValidCapacity c)
    (h2 : 2 ≤ c) (n : Nat) (h : SpscInv c s R xs) (a : Act) :
    ∃ R' xs', SpscInv c (spscStep n s a) R' xs' := by
  cases a with
  | write =>
    by_cases hn : s.next < n
    · rcases Nat.lt_or_ge xs.length c with hlt | hge
      · obtain ⟨h1, h3⟩ := h.abs.write_ok hc hlt s.next
        refine ⟨R, xs ++ [s.next], ?_⟩
        simp only [spscStep, hn, if_true, h1]
        refine ⟨h3, ?_, by simp [h.next_eq]; omega, h.received_eq⟩
        rw [List.length_append, List.length_singleton, List.range'_1_concat, ← h.content,
          h.next_eq]
      · have hfull : xs.length = c := le_antisymm h.abs.bound hge
        have h1 := h.abs.write_full hc h2 hfull s.next
        refine ⟨R, xs, ?_⟩
        simp only [spscStep, hn, if_true, h1]
        exact h
    · refine ⟨R, xs, ?_⟩
      simp only [spscStep, hn, if_false]
      exact h
  | read =>
    cases xs with
    | nil =>
      have h1 := h.abs.read_empty hc
      refine ⟨R, [], ?_⟩
      simp only [spscStep, h1]
      exact h
    | cons y ys =>
      obtain ⟨h1, h3⟩ := h.abs.read_ok hc
      have hcont := h.content
      simp only [List.length_cons, List.range'_succ, List.cons.injEq] at hcont
      refine ⟨R + 1, ys, ?_⟩
      simp only [spscStep, h1]
      refine ⟨h3, hcont.2, ?_, ?_⟩
      · have := h.next_eq
        simp only [List.length_cons] at this
        show s.next = R + 1 + ys.length
        omega
      · simp only [h.received_eq, hcont.1, List.range_succ, List.map_append, List.map_cons,
          List.map_nil]

/-- For a capacity of at least two every schedule keeps the invariant of the
run. -/
theorem SpscInv.spsc_run {c : Nat} (hc : ValidCapacity c) (h2 : 2 ≤ c) (n : Nat) (sched : List Act) :
    ∀ (s : Spsc) (R : Nat) (xs : List Nat), SpscInv c s R xs →
      ∃ R' xs', SpscInv c (spscRun n s sched) R' xs' := by
  induction sched with
  | nil => intro s R xs h; exact ⟨R, xs, h⟩
  | cons a sched ih =>
    intro s R xs h
    obtain ⟨R', xs', h'⟩ := h.spsc_step hc h2 n a
    exact ih _ R' xs' h'

/-- For a capacity of at least two, every schedule of write and read attempts of
a producer that enqueues `0, 1, 2, ...` delivers `0, 1, 2, ...` to the
consumer: the `k`-th read that returns yields `k - 1`. -/
theorem fifo_of_two_le {c : Nat} (hc : ValidCapacity c) (h2 : 2 ≤ c) (n : Nat)
    (sched : List Act) :
    (spscRun n (Spsc.mk (fresh c) 0 []) sched).received =
      (List.range (spscRun n (Spsc.mk (fresh c) 0 []) sched).received.length).map Cell.live := by
  have h0 : SpscInv c (Spsc.mk (fresh c) 0 []) 0 [] := ⟨fresh_abs hc, rfl, rfl, rfl⟩
  obtain ⟨R, xs, h⟩ := SpscInv.spsc_run hc h2 n sched _ 0 [] h0
  rw [h.received_eq]
  simp

/-- For a capacity of at least two, the number of outstanding items of a
reachable state never exceeds the capacity. -/
theorem occupancy_of_two_le {T : Type} {c : Nat} {q : MPMCQueue T} (hc : ValidCapacity c)
    (h2 : 2 ≤ c) (hq : Reachable c q) : sub32 q._write_cursor q._read_cursor ≤ c := by
  obtain ⟨R, xs, h⟩ := reachable_abs hc h2 hq
  rw [h.outstanding hc]
  exact h.bound

/-- For a capacity of at least two, a write attempt in a reachable state claims
a slot exactly when fewer than `c` items are outstanding, and yields without
changing anything otherwise. -/
theorem write_iff_of_two_le {T : Type} {c : Nat} {q : MPMCQueue T} (hc : ValidCapacity c)
    (h2 : 2 ≤ c) (hq : Reachable c q) (x : T) :
    (writeAttempt q x = Attempt.done (written q x) ↔ sub32 q._write_cursor q._read_cursor < c) ∧
    (sub32 q._write_cursor q._read_cursor = c → writeAttempt q x = Attempt.yield) := by
  obtain ⟨R, xs, h⟩ := reachable_abs hc h2 hq
  rw [h.outstanding hc]
  constructor
  · constructor
    · intro hw
      rcases Nat.lt_or_ge xs.length c with hlt | hge
      · exact hlt
      · have := h.write_full hc h2 (le_antisymm h.bound hge) x
        rw [this] at hw
        cases hw
    · intro hlt
      exact (h.write_ok hc hlt x).1
  · intro hfull
    exact h.write_full hc h2 hfull x

/-- For a capacity of at least two, a read attempt in a reachable state returns
an item exactly when the cursors differ, and yields otherwise. -/
theorem read_iff_of_two_le {T : Type} {c : Nat} {q : MPMCQueue T} (hc : ValidCapacity c)
    (h2 : 2 ≤ c) (hq : Reachable c q) :
    ((∃ r, readAttempt q = Attempt.done r) ↔ q._write_cursor ≠ q._read_cursor) ∧
    (q._write_cursor = q._read_cursor → readAttempt q = Attempt.yield) := by
  obtain ⟨R, xs, h⟩ := reachable_abs hc h2 hq
  constructor
  · constructor
    · rintro ⟨r, hr⟩ heq
      have := h.nil_of_cursors_eq hc heq.symm
      subst this
      rw [h.read_empty hc] at hr
      cases hr
    · intro hne
      cases xs with
      | nil =>
        exfalso
        apply hne
        rw [h.write_eq, h.read_eq]
        simp
      | cons y ys => exact ⟨_, (h.read_ok hc).1⟩
  · intro heq
    have := h.nil_of_cursors_eq hc heq.symm
    subst this
    exact h.read_empty hc

/-- When the producer cursor equals the size of the buffer, the loop of the
destructor never meets its exit condition: the consumer cursor is reset to zero
just before it would reach that value. -/
theorem destructorLoop_full {T : Type} (q : MPMCQueue T) (hlen : q._buffer.length = q._size)
    (hsize : q._size < 4294967296) :
    ∀ (fuel cc : Nat) (acc : List Nat), cc < q._size →
      ∃ acc', destructorLoop q fuel cc q._size acc = Teardown.running acc' ∧
        acc'.length = acc.length + fuel := by
  intro fuel
  induction fuel with
  | zero => intro cc acc _; exact ⟨acc, rfl, rfl⟩
  | succ n ih =>
    intro cc acc hcc
    have hne : cc ≠ q._size := by omega
    have hw : wrap32 (cc + 1) = cc + 1 := by unfold wrap32; omega
    have hnext : (if wrap32 (cc + 1) = q._size then 0 else wrap32 (cc + 1)) < q._size := by
      rw [hw]; split <;> omega
    obtain ⟨acc', h1, h2⟩ := ih _ (acc ++ [cc]) hnext
    refine ⟨acc', ?_, by rw [h2, List.length_append, List.length_singleton]; omega⟩
    rw [destructorLoop, if_pos hne, if_pos (by rw [hlen]; exact hcc)]
    exact h1

/-- When the cursors lie inside the buffer, consumer before producer, the loop
of the destructor destroys the slots between them, each once, and stops. -/
theorem destructorLoop_inside {T : Type} (q : MPMCQueue T) (hlen : q._buffer.length = q._size)
    (hsize : q._size < 4294967296) (pc : Nat) (hpc : pc < q._size) :
    ∀ (d cc : Nat) (acc : List Nat) (extra : Nat), cc + d = pc →
      destructorLoop q (d + 1 + extra) cc pc acc = Teardown.finished (acc ++ List.range' cc d) := by
  intro d
  induction d with
  | zero =>
    intro cc acc extra h
    have : cc = pc := by omega
    subst this
    rw [show 0 + 1 + extra = extra + 1 by omega, destructorLoop, if_neg (by simp)]
    simp
  | succ n ih =>
    intro cc acc extra h
    have hne : cc ≠ pc := by omega
    have hw : wrap32 (cc + 1) = cc + 1 := by unfold wrap32; omega
    have hnext : (if wrap32 (cc + 1) = q._size then 0 else wrap32 (cc + 1)) = cc + 1 := by
      rw [hw, if_neg (by omega)]
    rw [show n + 1 + 1 + extra = (n + 1 + extra) + 1 by omega, destructorLoop, if_pos hne,
      if_pos (by rw [hlen]; omega)]
    simp only [hnext]
    rw [ih (cc + 1) (acc ++ [cc]) extra (by omega), List.range'_succ]
    simp

/-- After `K` writes on a new queue of valid capacity `c`: for `K < c` the
destructor stops after destroying the slots `0, ..., K - 1`, each once; for
`K = c` it is still looping after any number of passes. -/
theorem destructor_after_writes {T : Type} {c : Nat} (hc : ValidCapacity c) (vs : List T)
    (hlen : vs.length ≤ c) :
    ∃ q1 : MPMCQueue T, (∀ fuel, writeMany (fuel + 1) (fresh c) vs = some q1) ∧
      (vs.length < c → ∀ extra, destructor false q1 (vs.length + 1 + extra) =
        Teardown.finished (List.range vs.length)) ∧
      (vs.length = c → ∀ fuel, ∃ acc, destructor false q1 fuel = Teardown.running acc ∧
        acc.length = fuel) := by
  have hle := hc.le
  have hpos := hc.pos
  obtain ⟨q1, h1, h2⟩ := Abs.writeMany_ok hc vs (fresh c) 0 [] (fresh_abs hc) (by simpa using hlen)
  rw [List.nil_append] at h2
  have hr : q1._read_cursor = 0 := by rw [h2.read_eq]
  have hw : q1._write_cursor = vs.length := by
    rw [h2.write_eq, Nat.zero_add]; omega
  have hbuf : q1._buffer.length = q1._size := by rw [h2.length_eq, h2.size_eq]
  have hsz : q1._size < 4294967296 := by rw [h2.size_eq]; omega
  refine ⟨q1, h1, ?_, ?_⟩
  · intro hlt extra
    simp only [destructor, Bool.not_false, if_true, hr, hw]
    rw [destructorLoop_inside q1 hbuf hsz vs.length (by rw [h2.size_eq]; exact hlt)
      vs.length 0 [] extra (by omega), List.nil_append, List.range_eq_range']
  · intro heq fuel
    simp only [destructor, Bool.not_false, if_true, hr, hw, heq]
    obtain ⟨acc, h3, h4⟩ := destructorLoop_full q1 hbuf hsz fuel 0 [] (by rw [h2.size_eq]; exact hpos)
    rw [h2.size_eq] at h3
    exact ⟨acc, h3, by simpa using h4⟩

/-- The atomic steps of a writer that is not interrupted add up to one pass of
the loop of `write` as `writeAttempt` describes it. -/
theorem writerRun_alone {T : Type} (q : MPMCQueue T) (x : T) :
    (∀ q', writeAttempt q x = Attempt.done q' →
      writerRun x 5 (q, WriterPc.loadCursor) = (q', WriterPc.returned)) ∧
    (writeAttempt q x = Attempt.yield →
      writerRun x 3 (q, WriterPc.loadCursor) = (q, WriterPc.loadCursor)) ∧
    (writeAttempt q x = Attempt.fault →
      writerRun x 2 (q, WriterPc.loadCursor) = (q, WriterPc.crashed)) := by
  unfold writeAttempt
  cases hs : q._buffer[q._write_cursor &&& q._mask]? with
  | none => simp [writerRun, writerStep, hs]
  | some slot =>
    have hlt : q._write_cursor &&& q._mask < q._buffer.length := by
      by_contra hge
      rw [List.getElem?_eq_none (by omega)] at hs
      cases hs
    by_cases hd : toInt32 (sub32 slot.sequence q._write_cursor) = 0
    · simp [writerRun, writerStep, hs, hd, List.getElem?_set_eq_of_lt, hlt]
    · simp [writerRun, writerStep, hs, hd]

/-- The atomic steps of a reader that is not interrupted add up to one pass of
the loop of `read` as `readAttempt` describes it. -/
theorem readerRun_alone {T : Type} (q : MPMCQueue T) :
    (∀ r, readAttempt q = Attempt.done r →
      readerRun 5 (q, ReaderPc.loadCursor) = (r.2, ReaderPc.returned r.1)) ∧
    (readAttempt q = Attempt.yield →
      readerRun 3 (q, ReaderPc.loadCursor) = (q, ReaderPc.loadCursor)) ∧
    (readAttempt q = Attempt.fault →
      readerRun 2 (q, ReaderPc.loadCursor) = (q, ReaderPc.crashed)) := by
  unfold readAttempt
  cases hs : q._buffer[q._read_cursor &&& q._mask]? with
  | none => simp [readerRun, readerStep, hs]
  | some slot =>
    have hlt : q._read_cursor &&& q._mask < q._buffer.length := by
      by_contra hge
      rw [List.getElem?_eq_none (by omega)] at hs
      cases hs
    by_cases hd : toInt32 (sub32 slot.sequence q._read_cursor) = 1
    · simp [readerRun, readerStep, hs, hd, List.getElem?_set_eq_of_lt, hlt]
    · simp [readerRun, readerStep, hs, hd]

/-- Every slot index below `c` is the slot of exactly one of the `c` positions
that follow `R`. -/
theorem slot_cover {c : Nat} (hpos : 0 < c) (R s : Nat) (hs : s < c) :
    ∃ j, j < c ∧ (R + j) % c = s ∧ ∀ j', j' < c → (R + j') % c = s → j' = j := by
  have ht : R % c < c := Nat.mod_lt _ hpos
  have hR : c * (R / c) + R % c = R := Nat.div_add_mod R c
  have huniq : ∀ j j', j < c → j' < c → (R + j) % c = s → (R + j') % c = s → j' = j := by
    intro j j' hj hj' h1 h2
    rcases Nat.lt_trichotomy j j' with hlt | heq | hgt
    · exact absurd (h1.trans h2.symm) (mod_ne_of_lt (by omega) (by omega))
    · exact heq.symm
    · exact absurd (h2.trans h1.symm) (mod_ne_of_lt (by omega) (by omega))
  rcases Nat.lt_or_ge s (R % c) with hlt | hge
  · refine ⟨s + c - R % c, by omega, ?_, fun j' hj' h' => ?_⟩
    · have e : R + (s + c - R % c) = s + c * (R / c + 1) := by
        rw [Nat.mul_add, Nat.mul_one]; omega
      rw [e, Nat.add_mul_mod_self_left, Nat.mod_eq_of_lt hs]
    · have e : R + (s + c - R % c) = s + c * (R / c + 1) := by
        rw [Nat.mul_add, Nat.mul_one]; omega
      exact huniq _ j' (by omega) hj' (by rw [e, Nat.add_mul_mod_self_left, Nat.mod_eq_of_lt hs]) h'
  · refine ⟨s - R % c, by omega, ?_, fun j' hj' h' => ?_⟩
    · have e : R + (s - R % c) = s + c * (R / c) := by omega
      rw [e, Nat.add_mul_mod_self_left, Nat.mod_eq_of_lt hs]
    · have e : R + (s - R % c) = s + c * (R / c) := by omega
      exact huniq _ j' (by omega) hj' (by rw [e, Nat.add_mul_mod_self_left, Nat.mod_eq_of_lt hs]) h'

/-- The slot addressed by the cursor that lies `j` steps after the read cursor
of a queue in the abstraction relation. -/
theorem Abs.slot_of_offset {T : Type} {c : Nat} {q : MPMCQueue T} {R : Nat} {xs : List T}
    (hc : ValidCapacity c) (h : Abs c q R xs) (j : Nat) :
    wrap32 (q._read_cursor + j) &&& q._mask = (R + j) % c := by
  rw [h.mask_eq, hc.and_mask, wrap32, hc.wrap_mod, h.read_eq, Nat.add_mod, hc.wrap_mod,
    ← Nat.add_mod]

/-- When the producer cursor is not below the size of the buffer and the
consumer cursor is inside the buffer, the loop of the destructor never meets its
exit condition. -/
theorem destructorLoop_beyond {T : Type} (q : MPMCQueue T) (hlen : q._buffer.length = q._size)
    (hsize : q._size < 4294967296) (pc : Nat) (hpc : q._size ≤ pc) :
    ∀ (fuel cc : Nat) (acc : List Nat), cc < q._size →
      ∃ acc', destructorLoop q fuel cc pc acc = Teardown.running acc' ∧
        acc'.length = acc.length + fuel := by
  intro fuel
  induction fuel with
  | zero => intro cc acc _; exact ⟨acc, rfl, rfl⟩
  | succ n ih =>
    intro cc acc hcc
    have hne : cc ≠ pc := by omega
    have hw : wrap32 (cc + 1) = cc + 1 := by unfold wrap32; omega
    have hnext : (if wrap32 (cc + 1) = q._size then 0 else wrap32 (cc + 1)) < q._size := by
      rw [hw]; split <;> omega
    obtain ⟨acc', h1, h2⟩ := ih _ (acc ++ [cc]) hnext
    refine ⟨acc', ?_, by rw [h2, List.length_append, List.length_singleton]; omega⟩
    rw [destructorLoop, if_pos hne, if_pos (by rw [hlen]; exact hcc)]
    exact h1

/-- A successful read leaves a moved-from object in the slot it read: nothing
in `read` ends the lifetime of the slot's object. -/
theorem read_leaves_object {T : Type} (q q' : MPMCQueue T) (v : Cell T)
    (h : readAttempt q = Attempt.done (v, q')) :
    ∃ slot', q'._buffer[q._read_cursor &&& q._mask]? = some slot' ∧
      slot'.data = Cell.movedFrom ∧ slot'.data.hasObject = true := by
  cases hs : q._buffer[q._read_cursor &&& q._mask]? with
  | none =>
    simp only [readAttempt, hs] at h
    cases h
  | some slot =>
    have hlt : q._read_cursor &&& q._mask < q._buffer.length := by
      by_contra hge
      rw [List.getElem?_eq_none (by omega)] at hs
      cases hs
    rw [readAttempt_of_slot hs] at h
    split at h
    · have hq : q' = consumed q := (congrArg Prod.snd (Attempt.done.inj h)).symm
      subst hq
      refine ⟨{ data := Cell.movedFrom, sequence := wrap32 (q._read_cursor + q._size) }, ?_,
        rfl, rfl⟩
      simp only [consumed]
      rw [List.getElem?_set_eq_of_lt _ hlt]
    · cases h

/-- Occupancy of the slots after a successful write: the slot written becomes
occupied, the others keep their state. -/
theorem occupied_written {T : Type} (q : MPMCQueue T) (x : T) (s : Nat)
    (hlt : q._write_cursor &&& q._mask < q._buffer.length) :
    occupied (written q x) s =
      if q._write_cursor &&& q._mask = s then true else occupied q s := by
  unfold occupied
  by_cases h : q._write_cursor &&& q._mask = s
  · subst h
    simp only [written, if_true]
    rw [List.getElem?_set_eq_of_lt _ hlt]
    rfl
  · simp only [written, h, if_false]
    rw [List.getElem?_set_ne h]

/-- Occupancy of the slots after a successful read: the slot read becomes free,
the others keep their state. -/
theorem occupied_consumed {T : Type} (q : MPMCQueue T) (s : Nat)
    (hlt : q._read_cursor &&& q._mask < q._buffer.length) :
    occupied (consumed q) s =
      if q._read_cursor &&& q._mask = s then false else occupied q s := by
  unfold occupied
  by_cases h : q._read_cursor &&& q._mask = s
  · subst h
    simp only [consumed, if_true]
    rw [List.getElem?_set_eq_of_lt _ hlt]
    rfl
  · simp only [consumed, h, if_false]
    rw [List.getElem?_set_ne h]

/-- For a capacity of at least two, from any state in the abstraction relation
the events of every sequence of attempts alternate on every slot, starting from
the occupancy of the slot in that state. -/
theorem Abs.events_alternate {T : Type} {c : Nat} (hc : ValidCapacity c) (h2 : 2 ≤ c) (s : Nat)
    (ops : List (Op T)) :
    ∀ (q : MPMCQueue T) (R : Nat) (xs : List T), Abs c q R xs →
      alternatesFrom s (occupied q s) (events q ops) = true := by
  induction ops with
  | nil => intro q R xs _; rfl
  | cons op ops ih =>
    intro q R xs h
    have hpos := hc.pos
    cases op with
    | write x =>
      rcases Nat.lt_or_ge xs.length c with hlt | hge
      · obtain ⟨h1, h3⟩ := h.write_ok hc hlt x
        obtain ⟨d, hd, hslot⟩ := h.vacant (R + xs.length) (le_refl _) (by omega)
        have hidx : q._write_cursor &&& q._mask = (R + xs.length) % c := by
          rw [h.mask_eq, h.write_eq, hc.and_mask, hc.wrap_mod]
        have hlen : q._write_cursor &&& q._mask < q._buffer.length := by
          rw [hidx, h.length_eq]; exact Nat.mod_lt _ hpos
        have ih' := ih (written q x) R (xs ++ [x]) h3
        rw [occupied_written q x s hlen] at ih'
        simp only [events, eventOf, applyOp, h1, List.singleton_append, alternatesFrom]
        by_cases hs : q._write_cursor &&& q._mask = s
        · have hocc : occupied q s = false := by
            unfold occupied
            rw [← hs, hidx, hslot]
            simp [hd]
          simp only [hs, if_true, hocc, Bool.not_false, Bool.true_and]
          simpa only [hs, if_true] using ih'
        · simp only [hs, if_false]
          simpa only [hs, if_false] using ih'
      · have hfull : xs.length = c := le_antisymm h.bound hge
        have h1 := h.write_full hc h2 hfull x
        simp only [events, eventOf, applyOp, h1, List.nil_append]
        exact ih q R xs h
    | read =>
      cases xs with
      | nil =>
        have h1 := h.read_empty hc
        simp only [events, eventOf, applyOp, h1, List.nil_append]
        exact ih q R [] h
      | cons y ys =>
        obtain ⟨h1, h3⟩ := h.read_ok hc
        have hslot := h.published 0 y (by simp)
        have hidx : q._read_cursor &&& q._mask = R % c := by
          rw [h.mask_eq, h.read_eq, hc.and_mask, hc.wrap_mod]
        have hlen : q._read_cursor &&& q._mask < q._buffer.length := by
          rw [hidx, h.length_eq]; exact Nat.mod_lt _ hpos
        have ih' := ih (consumed q) (R + 1) ys h3
        rw [occupied_consumed q s hlen] at ih'
        simp only [events, eventOf, applyOp, h1, List.singleton_append, alternatesFrom]
        by_cases hs : q._read_cursor &&& q._mask = s
        · have hocc : occupied q s = true := by
            unfold occupied
            rw [← hs, hidx]
            rw [Nat.add_zero] at hslot
            rw [hslot]
            rfl
          simp only [hs, if_true, hocc, Bool.true_and]
          simpa only [hs, if_true] using ih'
        · simp only [hs, if_false]
          simpa only [hs, if_false] using ih'

/-- For a capacity of at least two the events of every sequence of write and
read attempts on a new queue strictly alternate on every slot, starting with a
construct. -/
theorem alternates_of_two_le {T : Type} {c : Nat} (hc : ValidCapacity c) (h2 : 2 ≤ c)
    (ops : List (Op T)) (s : Nat) : alternates s (events (fresh c) ops) = true := by
  have h := Abs.events_alternate hc h2 s ops (fresh c) 0 [] (fresh_abs hc)
  have hocc : occupied (fresh c : MPMCQueue T) s = false := by
    unfold occupied
    cases hs : (fresh c : MPMCQueue T)._buffer[s]? with
    | none => rfl
    | some slot =>
      simp only [fresh, List.getElem?_map, Option.map_eq_some'] at hs
      obtain ⟨i, _, hi⟩ := hs
      rw [← hi]
      rfl
  rw [hocc] at h
  exact h


/-! ## The claims -/

/-- C1, evaluated at capacity 1 and `N = 2^32 + 1`: in the schedule of `N`
write attempts followed by one read attempt, every write attempt claims the only
slot, the sequence number wraps around to 1, and the first read that returns
yields `2^32`, not `0`. -/
theorem fifo_fails_capacity_one :
    (construct 1 true : Except CtorError (MPMCQueue Nat)) = Except.ok (fresh 1) ∧
    (spscRun 4294967297 (Spsc.mk (fresh 1) 0 [])
      (List.replicate 4294967297 Act.write ++ [Act.read])).received = [Cell.live 4294967296] ∧
    (spscRun 4294967297 (Spsc.mk (fresh 1) 0 [])
      (List.replicate 4294967297 Act.write ++ [Act.read])).received ≠ [Cell.live 0] := by
  have hw := single_writes 4294967297 0 4294967297 Cell.uninit 0 0 [] (by norm_num) (by norm_num)
  have hrun : (spscRun 4294967297 (Spsc.mk (fresh 1) 0 [])
      (List.replicate 4294967297 Act.write ++ [Act.read])).received = [Cell.live 4294967296] := by
    rw [spscRun, List.foldl_append, fresh_one]
    rw [spscRun] at hw
    rw [hw]
    rfl
  refine ⟨rfl, hrun, ?_⟩
  rw [hrun]
  intro h
  have h2 := List.head_eq_of_cons_eq h
  exact absurd (Cell.live.inj h2) (by norm_num)

/-- C2, evaluated at capacity 1: after one completed `write(10)` on the new
queue of capacity 1, exactly `capacity` items are outstanding, and yet a write
attempt observes `diff == 0`, claims the slot, stores 20 over the unread 10 and
returns. -/
theorem write_on_full_capacity_one :
    (construct 1 true : Except CtorError (MPMCQueue Nat)) = Except.ok (fresh 1) ∧
    write 1 (fresh 1) 10 = some (single (Cell.live 10) 1 0 1) ∧
    sub32 (single (Cell.live 10) 1 0 1)._write_cursor (single (Cell.live 10) 1 0 1)._read_cursor =
      (single (Cell.live 10) 1 0 1)._size ∧
    writeAttempt (single (Cell.live 10) 1 0 1) 20 = Attempt.done (single (Cell.live 20) 2 0 2) ∧
    write 1 (single (Cell.live 10) 1 0 1) 20 = some (single (Cell.live 20) 2 0 2) := by
  refine ⟨rfl, by decide, by decide, by decide, by decide⟩

/-- C3, evaluated at capacity 1: after two write attempts on the new queue of
capacity 1 the cursors differ (items are outstanding), and yet a read attempt
observes `diff == 2`, yields, and `read` never returns. -/
theorem read_spins_capacity_one :
    (construct 1 true : Except CtorError (MPMCQueue Nat)) = Except.ok (fresh 1) ∧
    runOps (fresh 1) [Op.write 10, Op.write 20] = single (Cell.live 20) 2 0 2 ∧
    (single (Cell.live 20) 2 0 2)._write_cursor ≠ (single (Cell.live 20) 2 0 2)._read_cursor ∧
    readAttempt (single (Cell.live 20) 2 0 2) = Attempt.yield ∧
    ∀ fuel, read fuel (single (Cell.live 20) 2 0 2) = none := by
  refine ⟨rfl, by decide, by decide, by decide, read_never_returns (by decide)⟩

/-- C4: for every valid capacity `c` and every list `vs` of at most `c` items,
the writes of `vs` on the new queue all return, the next `vs.length` reads all
return and yield the items of `vs` in order (each once), and the read after
them finds nothing and never returns. -/
theorem prefill_then_drain {T : Type} (c : Nat) (hc : ValidCapacity c) (vs : List T)
    (hlen : vs.length ≤ c) :
    construct c true = Except.ok (fresh c : MPMCQueue T) ∧
    ∃ q1 q2 : MPMCQueue T,
      (∀ fuel, writeMany (fuel + 1) (fresh c) vs = some q1) ∧
      (∀ fuel, readMany (fuel + 1) q1 vs.length = some (vs.map Cell.live, q2)) ∧
      readAttempt q2 = Attempt.yield ∧
      (∀ fuel, read fuel q2 = none) := by
  obtain ⟨q1, h1, h2⟩ := Abs.writeMany_ok hc vs (fresh c) 0 [] (fresh_abs hc) (by simpa using hlen)
  rw [List.nil_append] at h2
  obtain ⟨q2, h3, h4⟩ := Abs.readMany_ok hc vs q1 0 h2
  exact ⟨construct_valid hc, q1, q2, h1, h3, h4.read_empty hc,
    read_never_returns (h4.read_empty hc)⟩

/-- The statement of C4 at capacity 4 with the three items 7, 5, 7. -/
theorem prefill_then_drain_witness :
    ValidCapacity 4 ∧ [7, 5, 7].length ≤ 4 ∧
    construct 4 true = Except.ok (fresh 4 : MPMCQueue Nat) ∧
    ∃ q1 q2 : MPMCQueue Nat,
      (∀ fuel, writeMany (fuel + 1) (fresh 4) [7, 5, 7] = some q1) ∧
      (∀ fuel, readMany (fuel + 1) q1 [7, 5, 7].length = some ([7, 5, 7].map Cell.live, q2)) ∧
      readAttempt q2 = Attempt.yield ∧
      (∀ fuel, read fuel q2 = none) :=
  ⟨⟨2, by norm_num, by norm_num⟩, by decide,
    prefill_then_drain 4 ⟨2, by norm_num, by norm_num⟩ [7, 5, 7] (by decide)⟩

/-- C5: in every reachable state of a queue of valid capacity whose cursors are
equal, `write(x)` claims its slot on the first attempt, the `read()` after it
returns `x`, and the queue is then empty again with both cursors advanced by
one (modulo `2^32`); so `n` rounds of `write(i); read()` with `i = 0, 1, ...`
on a new queue return `0, ..., n - 1`, whatever `n` is. -/
theorem write_read_round_trip {T : Type} (c : Nat) (hc : ValidCapacity c) (q : MPMCQueue T)
    (hq : Reachable c q) (hempty : q._read_cursor = q._write_cursor) (x : T) (n : Nat) :
    (∃ q1 q2 : MPMCQueue T,
      writeAttempt q x = Attempt.done q1 ∧ (∀ fuel, write (fuel + 1) q x = some q1) ∧
      readAttempt q1 = Attempt.done (Cell.live x, q2) ∧
      (∀ fuel, read (fuel + 1) q1 = some (Cell.live x, q2)) ∧
      Reachable c q2 ∧ q2._read_cursor = q2._write_cursor ∧
      q2._write_cursor = wrap32 (q._write_cursor + 1) ∧
      q2._read_cursor = wrap32 (q._read_cursor + 1)) ∧
    (spscRun n (Spsc.mk (fresh c) 0 []) (alternation n)).received =
      (List.range n).map Cell.live := by
  obtain ⟨h1, h2⟩ := round_trip_core hc hq hempty x
  constructor
  · refine ⟨written q x, consumed (written q x), h1, write_returns h1, h2, read_returns h2,
      ?_, by simp only [consumed, written, hempty], rfl, rfl⟩
    have := reachable_step (reachable_step hq (Op.write x)) Op.read
    simpa only [applyOp, h1, h2] using this
  · have hfresh : Reachable c (fresh c : MPMCQueue Nat) := ⟨fresh c, [], construct_valid hc, rfl⟩
    rw [alternation_run hc n n (fresh c) 0 [] hfresh rfl (by omega), List.nil_append,
      List.range_eq_range']

/-- The statement of C5 at capacity 8, in the state after one write and one
read, for the item 42 and ten rounds. -/
theorem write_read_round_trip_witness :
    ValidCapacity 8 ∧
    Reachable 8 (runOps (fresh 8) [Op.write 3, Op.read]) ∧
    (runOps (fresh 8 : MPMCQueue Nat) [Op.write 3, Op.read])._read_cursor =
      (runOps (fresh 8 : MPMCQueue Nat) [Op.write 3, Op.read])._write_cursor ∧
    ((∃ q1 q2 : MPMCQueue Nat,
      writeAttempt (runOps (fresh 8) [Op.write 3, Op.read]) 42 = Attempt.done q1 ∧
      (∀ fuel, write (fuel + 1) (runOps (fresh 8) [Op.write 3, Op.read]) 42 = some q1) ∧
      readAttempt q1 = Attempt.done (Cell.live 42, q2) ∧
      (∀ fuel, read (fuel + 1) q1 = some (Cell.live 42, q2)) ∧
      Reachable 8 q2 ∧ q2._read_cursor = q2._write_cursor ∧
      q2._write_cursor =
        wrap32 ((runOps (fresh 8 : MPMCQueue Nat) [Op.write 3, Op.read])._write_cursor + 1) ∧
      q2._read_cursor =
        wrap32 ((runOps (fresh 8 : MPMCQueue Nat) [Op.write 3, Op.read])._read_cursor + 1)) ∧
    (spscRun 10 (Spsc.mk (fresh 8) 0 []) (alternation 10)).received =
      (List.range 10).map Cell.live) :=
  ⟨⟨3, by norm_num, by norm_num⟩, ⟨fresh 8, [Op.write 3, Op.read], rfl, rfl⟩, by decide,
    write_read_round_trip 8 ⟨3, by norm_num, by norm_num⟩ (runOps (fresh 8) [Op.write 3, Op.read])
      ⟨fresh 8, [Op.write 3, Op.read], rfl, rfl⟩ (by decide) 42 10⟩

/-- C6, evaluated at capacity 1: the constructor accepts capacity 1, and after
two write attempts on the new queue the write cursor is 2 and the read cursor
is 0, so `write_cursor - read_cursor` is 2 and exceeds the capacity. -/
theorem occupancy_exceeds_capacity_one :
    (construct 1 true : Except CtorError (MPMCQueue Nat)) = Except.ok (fresh 1) ∧
    runOps (fresh 1) [Op.write 10, Op.write 20] = single (Cell.live 20) 2 0 2 ∧
    sub32 (runOps (fresh 1 : MPMCQueue Nat) [Op.write 10, Op.write 20])._write_cursor
      (runOps (fresh 1 : MPMCQueue Nat) [Op.write 10, Op.write 20])._read_cursor = 2 ∧
    ¬ (sub32 (runOps (fresh 1 : MPMCQueue Nat) [Op.write 10, Op.write 20])._write_cursor
      (runOps (fresh 1 : MPMCQueue Nat) [Op.write 10, Op.write 20])._read_cursor ≤ 1) := by
  refine ⟨rfl, by decide, by decide, by decide⟩

/-- C7: for a `std::uint32_t` capacity `c`, construction (with a successful
allocation) succeeds exactly when `c > 0` and `c` is a power of two; in every
other case, whatever the allocation does, the constructor takes the assertion
path.  Capacities 0 and 3 take the assertion path; 1, 2, 4 and 1024 succeed. -/
theorem capacity_validity {T : Type} (c : Nat) (hc : c < 4294967296) :
    ((∃ q : MPMCQueue T, construct c true = Except.ok q) ↔ (0 < c ∧ ∃ k, c = 2 ^ k)) ∧
    (∀ mallocOk, (construct c mallocOk : Except CtorError (MPMCQueue T)) =
        Except.error CtorError.assertion ↔ ¬ (0 < c ∧ ∃ k, c = 2 ^ k)) ∧
    (construct 0 true : Except CtorError (MPMCQueue T)) = Except.error CtorError.assertion ∧
    (construct 3 true : Except CtorError (MPMCQueue T)) = Except.error CtorError.assertion ∧
    (construct 1 true : Except CtorError (MPMCQueue T)) = Except.ok (fresh 1) ∧
    (construct 2 true : Except CtorError (MPMCQueue T)) = Except.ok (fresh 2) ∧
    (construct 4 true : Except CtorError (MPMCQueue T)) = Except.ok (fresh 4) ∧
    (construct 1024 true : Except CtorError (MPMCQueue T)) = Except.ok (fresh 1024) := by
  have key := assertion_iff c hc
  refine ⟨?_, ?_, rfl, rfl, rfl, rfl, rfl, rfl⟩
  · rw [← key]
    by_cases h : c > 0 ∧ c &&& sub32 c 1 = 0
    · simp only [construct, h, and_self, if_true, Except.ok.injEq, exists_eq']
    · simp [construct, h]
  · intro mallocOk
    rw [← key]
    by_cases h : c > 0 ∧ c &&& sub32 c 1 = 0
    · cases mallocOk <;> simp [construct, h]
    · simp only [construct, h, if_false, not_false_eq_true]

/-- The statement of C7 at capacity 6, which is positive and not a power of two. -/
theorem capacity_validity_witness :
    (6 : Nat) < 4294967296 ∧
    (((∃ q : MPMCQueue Nat, construct 6 true = Except.ok q) ↔ (0 < 6 ∧ ∃ k, 6 = 2 ^ k)) ∧
    (∀ mallocOk, (construct 6 mallocOk : Except CtorError (MPMCQueue Nat)) =
        Except.error CtorError.assertion ↔ ¬ (0 < 6 ∧ ∃ k, 6 = 2 ^ k)) ∧
    (construct 0 true : Except CtorError (MPMCQueue Nat)) = Except.error CtorError.assertion ∧
    (construct 3 true : Except CtorError (MPMCQueue Nat)) = Except.error CtorError.assertion ∧
    (construct 1 true : Except CtorError (MPMCQueue Nat)) = Except.ok (fresh 1) ∧
    (construct 2 true : Except CtorError (MPMCQueue Nat)) = Except.ok (fresh 2) ∧
    (construct 4 true : Except CtorError (MPMCQueue Nat)) = Except.ok (fresh 4) ∧
    (construct 1024 true : Except CtorError (MPMCQueue Nat)) = Except.ok (fresh 1024)) :=
  ⟨by norm_num, capacity_validity 6 (by norm_num)⟩

/-- C8: for every valid capacity `c` the constructor succeeds and leaves both
cursors at zero, the mask at `c - 1`, and in every slot `i < c` no item and the
sequence number `i`, which is the write-ready value and not the read-ready value
`i + 1` of that position; a read attempt on the new queue finds nothing. -/
theorem initial_state {T : Type} (c : Nat) (hc : ValidCapacity c) :
    ∃ q : MPMCQueue T, construct c true = Except.ok q ∧
      q._read_cursor = 0 ∧ q._write_cursor = 0 ∧ q._mask = c - 1 ∧ q._size = c ∧
      q._buffer.length = c ∧
      (∀ i, i < c → ∃ slot, q._buffer[i]? = some slot ∧ slot.data = Cell.uninit ∧
        slot.sequence = i ∧ toInt32 (sub32 slot.sequence i) = 0 ∧
        toInt32 (sub32 slot.sequence i) ≠ 1) ∧
      readAttempt q = Attempt.yield := by
  have hle := hc.le
  refine ⟨fresh c, construct_valid hc, rfl, rfl, hc.sub32_one, rfl, by simp [fresh], ?_,
    (fresh_abs hc).read_empty hc⟩
  intro i hi
  refine ⟨{ data := Cell.uninit, sequence := i }, ?_, rfl, rfl, ?_, ?_⟩
  · simp only [fresh, List.getElem?_map, List.getElem?_range hi, Option.map_some', wrap32]
    congr 2
    omega
  · rw [diff_zero_iff]
  · rw [Ne, diff_one_iff]
    show ¬ (i % 4294967296 = (i + 1) % 4294967296)
    omega

/-- The statement of C8 at capacity 4. -/
theorem initial_state_witness :
    ValidCapacity 4 ∧ ∃ q : MPMCQueue Nat, construct 4 true = Except.ok q ∧
      q._read_cursor = 0 ∧ q._write_cursor = 0 ∧ q._mask = 4 - 1 ∧ q._size = 4 ∧
      q._buffer.length = 4 ∧
      (∀ i, i < 4 → ∃ slot, q._buffer[i]? = some slot ∧ slot.data = Cell.uninit ∧
        slot.sequence = i ∧ toInt32 (sub32 slot.sequence i) = 0 ∧
        toInt32 (sub32 slot.sequence i) ≠ 1) ∧
      readAttempt q = Attempt.yield :=
  ⟨⟨2, by norm_num, by norm_num⟩, initial_state 4 ⟨2, by norm_num, by norm_num⟩⟩

/-- C9, evaluated at capacity 2 and `K = 2`: after two writes and no read the
write cursor equals the size of the buffer; the destructor's cursor is reset to
0 before it can reach that value, so the destructor never finishes, and after
three passes of its loop it has already destroyed slot 0 twice. -/
theorem destructor_full_queue_loops :
    (construct 2 true : Except CtorError (MPMCQueue Nat)) = Except.ok (fresh 2) ∧
    writeMany 1 (fresh 2) [10, 20] = some (runOps (fresh 2) [Op.write 10, Op.write 20]) ∧
    destructor false (runOps (fresh 2 : MPMCQueue Nat) [Op.write 10, Op.write 20]) 3 =
      Teardown.running [0, 1, 0] ∧
    (∀ fuel destroyed,
      destructor false (runOps (fresh 2 : MPMCQueue Nat) [Op.write 10, Op.write 20]) fuel ≠
        Teardown.finished destroyed) := by
  refine ⟨rfl, by decide, by decide, ?_⟩
  intro fuel destroyed h
  have hq : runOps (fresh 2 : MPMCQueue Nat) [Op.write 10, Op.write 20] =
      { _buffer := [{ data := Cell.live 10, sequence := 1 }, { data := Cell.live 20, sequence := 2 }]
        _size := 2
        _mask := 1
        _read_cursor := 0
        _write_cursor := 2 } := by decide
  rw [hq] at h
  obtain ⟨acc, h1, _⟩ := destructorLoop_full
    ({ _buffer := [{ data := Cell.live 10, sequence := 1 }, { data := Cell.live 20, sequence := 2 }]
       _size := 2
       _mask := 1
       _read_cursor := 0
       _write_cursor := 2 } : MPMCQueue Nat) rfl (by norm_num) fuel 0 [] (by norm_num)
  simp only [destructor, Bool.not_false, if_true] at h
  rw [h1] at h
  cases h

/-- C10, evaluated at capacity 1: with two producers and one consumer on a new
queue of capacity 1, let the first producer complete `write(10)`, let the second
producer run `write(20)` up to and including the construction of its item, and
let the consumer then run `read()`.  Thread 0 wins the first producer claim and
thread 1 the second, thread 2 wins the first consumer claim, and it returns 20,
the item of the second producer claim; the item 10 of the first claim is gone
from the buffer. -/
theorem handoff_fails_capacity_one :
    (construct 1 true : Except CtorError (MPMCQueue Nat)) = Except.ok (fresh 1) ∧
    System.run
      (System.mk (fresh 1)
        [Thread.writer 10 WriterPc.loadCursor, Thread.writer 20 WriterPc.loadCursor,
          Thread.reader ReaderPc.loadCursor] [] [])
      [0, 0, 0, 0, 0, 1, 1, 1, 1, 2, 2, 2, 2, 2] =
    System.mk (single Cell.movedFrom 1 1 2)
      [Thread.writer 10 WriterPc.returned, Thread.writer 20 (WriterPc.publish 1),
        Thread.reader (ReaderPc.returned (Cell.live 20))] [0, 1] [2] := by
  refine ⟨rfl, by decide⟩

/-- C11, evaluated at capacity 1: two producers and one consumer on a new queue
of capacity 1.  The first producer completes `write(10)`, the second runs
`write(20)` up to and including the construction of its item, and the consumer
then loads the read cursor 0 and the sequence number of the slot.  The consumer
observes sequence number 1 for the position 0 it is about to claim (`diff ==
1`), and the slot holds 20, the item of the producer that claimed position 1,
not the item 10 of the producer that claimed position 0. -/
theorem publication_fails_capacity_one :
    (construct 1 true : Except CtorError (MPMCQueue Nat)) = Except.ok (fresh 1) ∧
    System.run
      (System.mk (fresh 1)
        [Thread.writer 10 WriterPc.loadCursor, Thread.writer 20 WriterPc.loadCursor,
          Thread.reader ReaderPc.loadCursor] [] [])
      [0, 0, 0, 0, 0, 1, 1, 1, 1, 2, 2] =
    System.mk (single (Cell.live 20) 1 0 2)
      [Thread.writer 10 WriterPc.returned, Thread.writer 20 (WriterPc.publish 1),
        Thread.reader (ReaderPc.claim 0 1)] [0, 1] [] := by
  refine ⟨rfl, by decide⟩

/-- C12, evaluated at capacity 2.  After `write; read; write; read; write` the
read cursor is 2 and the write cursor is 3: the destructor indexes the buffer
at 2, outside its two slots, and destroys nothing of the occupied position.
After `write; read; write; write` the read cursor is 1 and the write cursor is
3: the destructor stays inside the buffer but never finishes, and after three
passes it has destroyed slot 1 twice. -/
theorem destructor_out_of_range :
    (construct 2 true : Except CtorError (MPMCQueue Nat)) = Except.ok (fresh 2) ∧
    runOps (fresh 2) [Op.write 10, Op.read, Op.write 20, Op.read, Op.write 30] =
      MPMCQueue.mk [Slot.mk (Cell.live 30) 3, Slot.mk Cell.movedFrom 3] 2 1 2 3 ∧
    (∀ fuel, destructor false
        (runOps (fresh 2 : MPMCQueue Nat) [Op.write 10, Op.read, Op.write 20, Op.read, Op.write 30])
        (fuel + 1) = Teardown.overrun [] 2) ∧
    runOps (fresh 2) [Op.write 10, Op.read, Op.write 20, Op.write 30] =
      MPMCQueue.mk [Slot.mk (Cell.live 30) 3, Slot.mk (Cell.live 20) 2] 2 1 1 3 ∧
    destructor false
        (runOps (fresh 2 : MPMCQueue Nat) [Op.write 10, Op.read, Op.write 20, Op.write 30]) 3 =
      Teardown.running [1, 0, 1] ∧
    (∀ fuel destroyed, destructor false
        (runOps (fresh 2 : MPMCQueue Nat) [Op.write 10, Op.read, Op.write 20, Op.write 30]) fuel ≠
      Teardown.finished destroyed) := by
  have hq1 : runOps (fresh 2 : MPMCQueue Nat)
      [Op.write 10, Op.read, Op.write 20, Op.read, Op.write 30] =
      MPMCQueue.mk [Slot.mk (Cell.live 30) 3, Slot.mk Cell.movedFrom 3] 2 1 2 3 := by decide
  have hq2 : runOps (fresh 2 : MPMCQueue Nat) [Op.write 10, Op.read, Op.write 20, Op.write 30] =
      MPMCQueue.mk [Slot.mk (Cell.live 30) 3, Slot.mk (Cell.live 20) 2] 2 1 1 3 := by decide
  refine ⟨rfl, hq1, ?_, hq2, by decide, ?_⟩
  · intro fuel
    rw [hq1]
    rfl
  · intro fuel destroyed h
    rw [hq2] at h
    obtain ⟨acc, h1, _⟩ := destructorLoop_beyond
      (MPMCQueue.mk [Slot.mk (Cell.live 30) 3, Slot.mk (Cell.live 20) 2] 2 1 1 3 : MPMCQueue Nat)
      rfl (by norm_num) 3 (by norm_num) fuel 1 [] (by norm_num)
    simp only [destructor, Bool.not_false, if_true] at h
    rw [h1] at h
    cases h

/-- C13, evaluated at capacity 1: two write attempts on the new queue of
capacity 1 both claim slot 0, so the events on slot 0 are construct, construct,
with no move-out in between: the second write constructs into the slot whose
published item has not been moved out. -/
theorem alternation_fails_capacity_one :
    (construct 1 true : Except CtorError (MPMCQueue Nat)) = Except.ok (fresh 1) ∧
    events (fresh 1) [Op.write 10, Op.write 20] =
      [SlotEvent.construct 0, SlotEvent.construct 0] ∧
    alternates 0 (events (fresh 1) [Op.write 10, Op.write 20]) = false ∧
    occupied (single (Cell.live 10) 1 0 1) 0 = true ∧
    writeAttempt (single (Cell.live 10) 1 0 1) 20 = Attempt.done (single (Cell.live 20) 2 0 2) := by
  refine ⟨rfl, by decide, by decide, by decide, by decide⟩

/-- C14: if a write attempt at write cursor `w` succeeds, then afterwards the
write cursor is `w + 1` modulo `2^32`, the slot at index `w & mask` holds the
written item with sequence number `w + 1` modulo `2^32`, and the read cursor,
the size, the mask, the length of the buffer and every other slot, data and
sequence number, are unchanged. -/
theorem write_effect {T : Type} (q q' : MPMCQueue T) (x : T)
    (h : writeAttempt q x = Attempt.done q') :
    q'._write_cursor = wrap32 (q._write_cursor + 1) ∧
    q'._buffer[q._write_cursor &&& q._mask]? =
      some { data := Cell.live x, sequence := wrap32 (q._write_cursor + 1) } ∧
    q'._read_cursor = q._read_cursor ∧ q'._size = q._size ∧ q'._mask = q._mask ∧
    q'._buffer.length = q._buffer.length ∧
    (∀ i, i ≠ (q._write_cursor &&& q._mask) → q'._buffer[i]? = q._buffer[i]?) := by
  cases hs : q._buffer[q._write_cursor &&& q._mask]? with
  | none =>
    simp only [writeAttempt, hs] at h
    cases h
  | some slot =>
    have hlt : q._write_cursor &&& q._mask < q._buffer.length := by
      by_contra hge
      rw [List.getElem?_eq_none (by omega)] at hs
      cases hs
    rw [writeAttempt_of_slot x hs] at h
    split at h
    · have hq : q' = written q x := (Attempt.done.inj h).symm
      subst hq
      refine ⟨rfl, ?_, rfl, rfl, rfl, by simp [written], ?_⟩
      · simp only [written]
        rw [List.getElem?_set_eq_of_lt _ hlt]
      · intro i hi
        simp only [written]
        rw [List.getElem?_set_ne (Ne.symm hi)]
    · cases h

/-- The statement of C14 for the first write on a new queue of capacity 4. -/
theorem write_effect_witness :
    writeAttempt (fresh 4) 7 = Attempt.done (written (fresh 4) 7) ∧
    (written (fresh 4 : MPMCQueue Nat) 7)._write_cursor =
      wrap32 ((fresh 4 : MPMCQueue Nat)._write_cursor + 1) ∧
    (written (fresh 4 : MPMCQueue Nat) 7)._buffer[(fresh 4 : MPMCQueue Nat)._write_cursor &&&
        (fresh 4 : MPMCQueue Nat)._mask]? =
      some { data := Cell.live 7,
             sequence := wrap32 ((fresh 4 : MPMCQueue Nat)._write_cursor + 1) } ∧
    (written (fresh 4 : MPMCQueue Nat) 7)._read_cursor = (fresh 4 : MPMCQueue Nat)._read_cursor ∧
    (written (fresh 4 : MPMCQueue Nat) 7)._size = (fresh 4 : MPMCQueue Nat)._size ∧
    (written (fresh 4 : MPMCQueue Nat) 7)._mask = (fresh 4 : MPMCQueue Nat)._mask ∧
    (written (fresh 4 : MPMCQueue Nat) 7)._buffer.length =
      (fresh 4 : MPMCQueue Nat)._buffer.length ∧
    (∀ i, i ≠ ((fresh 4 : MPMCQueue Nat)._write_cursor &&& (fresh 4 : MPMCQueue Nat)._mask) →
      (written (fresh 4 : MPMCQueue Nat) 7)._buffer[i]? = (fresh 4 : MPMCQueue Nat)._buffer[i]?) :=
  ⟨by decide, write_effect (fresh 4) (written (fresh 4) 7) 7 (by decide)⟩

/-- C15: if a read attempt at read cursor `r` succeeds, then it returns the data
held in the slot at index `r & mask`, and afterwards the read cursor is `r + 1`
modulo `2^32`, that slot has sequence number `r + size` modulo `2^32`, and the
write cursor, the size, the mask, the length of the buffer and every other slot,
data and sequence number, are unchanged. -/
theorem read_effect {T : Type} (q q' : MPMCQueue T) (v : Cell T)
    (h : readAttempt q = Attempt.done (v, q')) :
    (∃ slot, q._buffer[q._read_cursor &&& q._mask]? = some slot ∧ v = slot.data) ∧
    q'._read_cursor = wrap32 (q._read_cursor + 1) ∧
    (∃ slot', q'._buffer[q._read_cursor &&& q._mask]? = some slot' ∧
      slot'.sequence = wrap32 (q._read_cursor + q._size)) ∧
    q'._write_cursor = q._write_cursor ∧ q'._size = q._size ∧ q'._mask = q._mask ∧
    q'._buffer.length = q._buffer.length ∧
    (∀ i, i ≠ (q._read_cursor &&& q._mask) → q'._buffer[i]? = q._buffer[i]?) := by
  cases hs : q._buffer[q._read_cursor &&& q._mask]? with
  | none =>
    simp only [readAttempt, hs] at h
    cases h
  | some slot =>
    have hlt : q._read_cursor &&& q._mask < q._buffer.length := by
      by_contra hge
      rw [List.getElem?_eq_none (by omega)] at hs
      cases hs
    rw [readAttempt_of_slot hs] at h
    split at h
    · have hp := Attempt.done.inj h
      have hv : v = slot.data := (congrArg Prod.fst hp).symm
      have hq : q' = consumed q := (congrArg Prod.snd hp).symm
      subst hq
      refine ⟨⟨slot, rfl, hv⟩, rfl,
        ⟨{ data := Cell.movedFrom, sequence := wrap32 (q._read_cursor + q._size) }, ?_, rfl⟩,
        rfl, rfl, rfl, by simp [consumed], ?_⟩
      · simp only [consumed]
        rw [List.getElem?_set_eq_of_lt _ hlt]
      · intro i hi
        simp only [consumed]
        rw [List.getElem?_set_ne (Ne.symm hi)]
    · cases h

/-- The statement of C15 for the read after one write on a new queue of
capacity 4. -/
theorem read_effect_witness :
    readAttempt (written (fresh 4) 7) =
      Attempt.done (Cell.live 7, consumed (written (fresh 4) 7)) ∧
    (∃ slot, (written (fresh 4 : MPMCQueue Nat) 7)._buffer[
        (written (fresh 4 : MPMCQueue Nat) 7)._read_cursor &&&
          (written (fresh 4 : MPMCQueue Nat) 7)._mask]? = some slot ∧ Cell.live 7 = slot.data) ∧
    (consumed (written (fresh 4 : MPMCQueue Nat) 7))._read_cursor =
      wrap32 ((written (fresh 4 : MPMCQueue Nat) 7)._read_cursor + 1) ∧
    (∃ slot', (consumed (written (fresh 4 : MPMCQueue Nat) 7))._buffer[
        (written (fresh 4 : MPMCQueue Nat) 7)._read_cursor &&&
          (written (fresh 4 : MPMCQueue Nat) 7)._mask]? = some slot' ∧
      slot'.sequence = wrap32 ((written (fresh 4 : MPMCQueue Nat) 7)._read_cursor +
        (written (fresh 4 : MPMCQueue Nat) 7)._size)) ∧
    (consumed (written (fresh 4 : MPMCQueue Nat) 7))._write_cursor =
      (written (fresh 4 : MPMCQueue Nat) 7)._write_cursor ∧
    (consumed (written (fresh 4 : MPMCQueue Nat) 7))._size =
      (written (fresh 4 : MPMCQueue Nat) 7)._size ∧
    (consumed (written (fresh 4 : MPMCQueue Nat) 7))._mask =
      (written (fresh 4 : MPMCQueue Nat) 7)._mask ∧
    (consumed (written (fresh 4 : MPMCQueue Nat) 7))._buffer.length =
      (written (fresh 4 : MPMCQueue Nat) 7)._buffer.length ∧
    (∀ i, i ≠ ((written (fresh 4 : MPMCQueue Nat) 7)._read_cursor &&&
        (written (fresh 4 : MPMCQueue Nat) 7)._mask) →
      (consumed (written (fresh 4 : MPMCQueue Nat) 7))._buffer[i]? =
        (written (fresh 4 : MPMCQueue Nat) 7)._buffer[i]?) :=
  ⟨by decide, read_effect (written (fresh 4) 7) (consumed (written (fresh 4) 7)) (Cell.live 7)
    (by decide)⟩

/-- C16, evaluated at capacity 2.  After `write(10); read()` both cursors are 1,
so no position is occupied, and yet slot 0 still holds the moved-from object:
`read` did not destroy it.  The destructor then destroys nothing, so the object
constructed in slot 0 is never destroyed.  After `write; read; write; read` the
next write constructs its item in slot 0 over the object that is still there. -/
theorem read_keeps_object_alive :
    (construct 2 true : Except CtorError (MPMCQueue Nat)) = Except.ok (fresh 2) ∧
    readAttempt (written (fresh 2) 10) =
      Attempt.done (Cell.live 10, MPMCQueue.mk [Slot.mk Cell.movedFrom 2, Slot.mk Cell.uninit 1] 2 1 1 1) ∧
    (MPMCQueue.mk [Slot.mk Cell.movedFrom 2, Slot.mk Cell.uninit 1] 2 1 1 1 :
        MPMCQueue Nat)._buffer.map (fun slot => slot.data.hasObject) = [true, false] ∧
    (∀ fuel, destructor false
        (MPMCQueue.mk [Slot.mk Cell.movedFrom 2, Slot.mk Cell.uninit 1] 2 1 1 1 : MPMCQueue Nat)
        (fuel + 1) = Teardown.finished []) ∧
    runOps (fresh 2) [Op.write 10, Op.read, Op.write 20, Op.read] =
      MPMCQueue.mk [Slot.mk Cell.movedFrom 2, Slot.mk Cell.movedFrom 3] 2 1 2 2 ∧
    writeAttempt (MPMCQueue.mk [Slot.mk Cell.movedFrom 2, Slot.mk Cell.movedFrom 3] 2 1 2 2) 30 =
      Attempt.done (MPMCQueue.mk [Slot.mk (Cell.live 30) 3, Slot.mk Cell.movedFrom 3] 2 1 2 3) := by
  refine ⟨rfl, by decide, by decide, fun fuel => rfl, by decide, by decide⟩

/-- C17: for every power-of-two capacity `c` with `1 ≤ c ≤ 2^31` and every
`std::uint32_t` cursor value `x`: masking with `c - 1` is the remainder modulo
`c`; the successor of `x` modulo `2^32` addresses the cyclically next slot; `x +
c` modulo `2^32` addresses the slot of `x`.  This also holds at the wrap of the
cursor from `2^32 - 1` to `0`, and the value `r + c` that `read` stores as
sequence number passes the test `diff == 0` of a writer whose cursor has that
value, a cursor that addresses the slot of `r`. -/
theorem slot_addressing (c : Nat) (hc : ValidCapacity c) (x : Nat) (_hx : x < 4294967296) :
    x &&& (c - 1) = x % c ∧
    wrap32 (x + 1) &&& (c - 1) = ((x &&& (c - 1)) + 1) % c ∧
    wrap32 (x + c) &&& (c - 1) = x &&& (c - 1) ∧
    (fresh c : MPMCQueue Nat)._mask = c - 1 ∧
    wrap32 (4294967295 + 1) = 0 ∧
    wrap32 (4294967295 + 1) &&& (c - 1) = ((4294967295 &&& (c - 1)) + 1) % c ∧
    toInt32 (sub32 (wrap32 (x + c)) (wrap32 (x + c))) = 0 := by
  refine ⟨hc.and_mask x, ?_, ?_, hc.sub32_one, rfl, ?_, ?_⟩
  · rw [hc.and_mask, hc.and_mask, wrap32, hc.wrap_mod, Nat.add_mod x 1 c, Nat.add_mod (x % c) 1 c,
      Nat.mod_mod]
  · rw [hc.and_mask, hc.and_mask, wrap32, hc.wrap_mod, Nat.add_mod_right]
  · rw [hc.and_mask, hc.and_mask, wrap32, hc.wrap_mod, Nat.add_mod 4294967295 1 c,
      Nat.add_mod (4294967295 % c) 1 c, Nat.mod_mod]
  · rw [diff_zero_iff]

/-- The statement of C17 at capacity 8 for the largest cursor value. -/
theorem slot_addressing_witness :
    ValidCapacity 8 ∧ (4294967295 : Nat) < 4294967296 ∧
    (4294967295 &&& (8 - 1) = 4294967295 % 8 ∧
    wrap32 (4294967295 + 1) &&& (8 - 1) = ((4294967295 &&& (8 - 1)) + 1) % 8 ∧
    wrap32 (4294967295 + 8) &&& (8 - 1) = 4294967295 &&& (8 - 1) ∧
    (fresh 8 : MPMCQueue Nat)._mask = 8 - 1 ∧
    wrap32 (4294967295 + 1) = 0 ∧
    wrap32 (4294967295 + 1) &&& (8 - 1) = ((4294967295 &&& (8 - 1)) + 1) % 8 ∧
    toInt32 (sub32 (wrap32 (4294967295 + 8)) (wrap32 (4294967295 + 8))) = 0) :=
  ⟨⟨3, by norm_num, by norm_num⟩, by norm_num,
    slot_addressing 8 ⟨3, by norm_num, by norm_num⟩ 4294967295 (by norm_num)⟩

/-- C18: for every power-of-two capacity `c ≥ 2` and every state reachable from
the new queue by write and read attempts, with `r` the read cursor, `w` the
write cursor and `n = w - r` modulo `2^32`: `n ≤ c`; for `j < n` the slot of the
position `r + j` holds an item and has sequence number `r + j + 1`; for `n ≤ j <
c` the slot of the position `r + j` holds no item and has sequence number `r +
j` (all modulo `2^32`); and every slot is the slot of exactly one of these `c`
positions. -/
theorem slot_sequence_invariant {T : Type} (c : Nat) (hc : ValidCapacity c) (h2 : 2 ≤ c)
    (q : MPMCQueue T) (hq : Reachable c q) :
    sub32 q._write_cursor q._read_cursor ≤ c ∧
    (∀ j, j < sub32 q._write_cursor q._read_cursor →
      ∃ x, q._buffer[wrap32 (q._read_cursor + j) &&& q._mask]? =
        some { data := Cell.live x, sequence := wrap32 (q._read_cursor + j + 1) }) ∧
    (∀ j, sub32 q._write_cursor q._read_cursor ≤ j → j < c →
      ∃ d, d.isVacant = true ∧ q._buffer[wrap32 (q._read_cursor + j) &&& q._mask]? =
        some { data := d, sequence := wrap32 (q._read_cursor + j) }) ∧
    q._buffer.length = c ∧
    (∀ s, s < c → ∃ j, j < c ∧ wrap32 (q._read_cursor + j) &&& q._mask = s ∧
      ∀ j', j' < c → wrap32 (q._read_cursor + j') &&& q._mask = s → j' = j) := by
  obtain ⟨R, xs, h⟩ := reachable_abs hc h2 hq
  rw [h.outstanding hc]
  refine ⟨h.bound, ?_, ?_, h.length_eq, ?_⟩
  · intro j hj
    obtain ⟨x, hx⟩ : ∃ x, xs[j]? = some x := ⟨xs[j], List.getElem?_eq_getElem hj⟩
    refine ⟨x, ?_⟩
    rw [h.slot_of_offset hc, h.published j x hx, h.read_eq]
    simp only [wrap32]
    congr 2
    omega
  · intro j hj1 hj2
    obtain ⟨d, hd, hslot⟩ := h.vacant (R + j) (by omega) (by omega)
    refine ⟨d, hd, ?_⟩
    rw [h.slot_of_offset hc, hslot, h.read_eq]
    simp only [wrap32]
    congr 2
    omega
  · intro s hs
    obtain ⟨j, hj, h1, h3⟩ := slot_cover hc.pos R s hs
    refine ⟨j, hj, by rw [h.slot_of_offset hc, h1], fun j' hj' h' => h3 j' hj' ?_⟩
    rw [h.slot_of_offset hc] at h'
    exact h'

/-- The statement of C18 at capacity 2 in the state after three writes and one
read, where the write cursor has passed the end of the buffer. -/
theorem slot_sequence_invariant_witness :
    ValidCapacity 2 ∧ 2 ≤ 2 ∧ Reachable 2 lapped ∧
    (sub32 lapped._write_cursor lapped._read_cursor ≤ 2 ∧
    (∀ j, j < sub32 lapped._write_cursor lapped._read_cursor →
      ∃ x, lapped._buffer[wrap32 (lapped._read_cursor + j) &&& lapped._mask]? =
        some { data := Cell.live x, sequence := wrap32 (lapped._read_cursor + j + 1) }) ∧
    (∀ j, sub32 lapped._write_cursor lapped._read_cursor ≤ j → j < 2 →
      ∃ d, d.isVacant = true ∧ lapped._buffer[wrap32 (lapped._read_cursor + j) &&& lapped._mask]? =
        some { data := d, sequence := wrap32 (lapped._read_cursor + j) }) ∧
    lapped._buffer.length = 2 ∧
    (∀ s, s < 2 → ∃ j, j < 2 ∧ wrap32 (lapped._read_cursor + j) &&& lapped._mask = s ∧
      ∀ j', j' < 2 → wrap32 (lapped._read_cursor + j') &&& lapped._mask = s → j' = j)) :=
  ⟨⟨1, by norm_num, by norm_num⟩, le_refl 2,
    ⟨fresh 2, [Op.write 5, Op.write 6, Op.read, Op.write 7], rfl, rfl⟩,
    slot_sequence_invariant 2 ⟨1, by norm_num, by norm_num⟩ (le_refl 2) lapped
      ⟨fresh 2, [Op.write 5, Op.write 6, Op.read, Op.write 7], rfl, rfl⟩⟩

end glimpse
